import Mathlib

/-!
The `scp` lexer.

A shallow embedding of `src/scp/src/main.cpp` (namespace `Scp`): the token model, the
lexer state and its scanning routines, followed by theorems about them.

Conventions of the embedding.

* A `std::string` holding source text is a `List Char`, one `Char` per byte.
* The character classes are those of the "C" locale; a byte outside ASCII is in none.
* `size_t` fields are `Nat`: every one of them is bounded by the length of the source
  (cursor, token start) or by the number of its newlines plus one (line).
* `std::cout` is the field `out` of the lexer state: the list, in order, of the texts
  written by `SCP_Error`.
* A `while` loop is a function recursive on a fuel argument that answers `none` when
  the fuel runs out; every routine supplies the fuel itself, and the theorems state
  results of the form `some _`.
-/

namespace Scp

/-! ## Character classes (`<cctype>`, "C" locale) -/

/-- The NUL character: what `std::string::operator[]` yields at index `size()`. -/
def NUL : Char := Char.ofNat 0

/-- The double quote character. -/
def DQUOTE : Char := Char.ofNat 34

/-- The newline character. -/
def NEWLINE : Char := Char.ofNat 10

/-- `std::isspace`: space, `\t`, `\n`, `\v`, `\f`, `\r`. -/
def isspace (c : Char) : Bool :=
  c.toNat == 32 || (9 ≤ c.toNat && c.toNat ≤ 13)

/-- `std::isdigit`: `0` to `9`. -/
def isdigit (c : Char) : Bool :=
  48 ≤ c.toNat && c.toNat ≤ 57

/-- `std::isalpha`: `A` to `Z` and `a` to `z`. -/
def isalpha (c : Char) : Bool :=
  (65 ≤ c.toNat && c.toNat ≤ 90) || (97 ≤ c.toNat && c.toNat ≤ 122)

/-- `std::isalnum`: a letter or a digit. -/
def isalnum (c : Char) : Bool :=
  isalpha c || isdigit c

/-! ## Diagnostics -/

/-- `SCP_Error`: the text it writes to `std::cout`. The format string is
`<F:L:C> Error: M` followed by a newline, `F`, `L`, `C`, `M` standing for its four
replacement fields, which receive `filename`, `line`, `cursor`, `msg` in that order. -/
def SCP_Error (msg filename : String) (line cursor : Nat) : String :=
  "<" ++ filename ++ ":" ++ toString line ++ ":" ++ toString cursor ++ "> Error: " ++ msg ++ "\n"

/-- The message `std::format("unknown symbol (first)", first)`, the character between
single quotes. -/
def unknownSymbol (first : Char) : String :=
  "unknown symbol \x27" ++ String.singleton first ++ "\x27"

/-- The message of `Lexer::String`. -/
def unterminated : String :=
  "unterminated string literal"

/-! ## Tokens -/

/-- `enum class TokenType`. -/
inductive TokenType where
  | Ident
  | Add
  | Sub
  | Mul
  | Div
  | Value
deriving DecidableEq, Repr

/-- `struct Token` (the field `Type` is spelled `Type_`). -/
structure Token where
  Lexeme : List Char
  Line : Nat
  Position : Nat
  Type_ : TokenType
deriving DecidableEq, Repr

/-! ## Lexer state -/

/-- `class Lexer`: its data members, and `out` for the lines written to `std::cout`. -/
structure Lexer where
  m_Source : List Char
  m_Filename : String
  m_Cursor : Nat
  m_TokenStart : Nat
  m_LineStart : Nat
  m_Line : Nat
  m_Tokens : List Token
  out : List String
deriving DecidableEq, Repr

/-- The constructor `Lexer::Lexer(const std::string& src)`; nothing has been written
yet. -/
def Lexer.ofSource (src : List Char) : Lexer :=
  { m_Source := src
    m_Filename := "script"
    m_Cursor := 0
    m_TokenStart := 0
    m_LineStart := 0
    m_Line := 1
    m_Tokens := []
    out := [] }

/-- `Lexer::LoadFile`. The file system is the partial map `files` from paths to contents:
`files filepath` is `none` when `std::ifstream file(filepath)` is not open, and the whole
content of the file otherwise. `*this = Lexer(src)` replaces every data member; what was
written to `std::cout` stays written. -/
def Lexer.LoadFile (files : String → Option (List Char)) (l : Lexer) (filepath : String) :
    Lexer :=
  match files filepath with
  | none =>
    { l with out := l.out ++ [SCP_Error ("failed to open file: /" ++ filepath) filepath 0 0] }
  | some src =>
    { Lexer.ofSource src with m_Filename := filepath, out := l.out }

/-- `Lexer::GetTokens`. -/
def Lexer.GetTokens (l : Lexer) : List Token :=
  l.m_Tokens

/-- `Lexer::IsAtEnd`. -/
def Lexer.IsAtEnd (l : Lexer) : Bool :=
  decide (l.m_Cursor ≥ l.m_Source.length)

/-- `Lexer::Current`: `m_Source[m_Cursor]`, which is NUL at index `size()`. -/
def Lexer.Current (l : Lexer) : Char :=
  l.m_Source.getD l.m_Cursor NUL

/-- `Lexer::Advance`: the returned character and the new state. -/
def Lexer.Advance (l : Lexer) : Char × Lexer :=
  if l.IsAtEnd then
    (NUL, l)
  else
    let l1 := { l with m_Cursor := l.m_Cursor + 1 }
    (l1.Current, l1)

/-- The loop of `Lexer::Trim`. -/
def Lexer.TrimLoop : Nat → Lexer → Option Lexer
  | 0, _ => none
  | fuel + 1, l =>
    if isspace l.Current then
      let l1 := if l.Current = NEWLINE then { l with m_Line := l.m_Line + 1 } else l
      Lexer.TrimLoop fuel l1.Advance.2
    else
      some l

/-- `Lexer::Trim`. -/
def Lexer.Trim (l : Lexer) : Option Lexer :=
  Lexer.TrimLoop (l.m_Source.length - l.m_Cursor + 1) l

/-- `Lexer::LastLexeme`: `m_Source.substr(m_TokenStart, m_Cursor - m_TokenStart)`. The
subtraction does not wrap and `substr` does not throw where `ScanTokens` reaches it:
there `m_TokenStart ≤ m_Cursor ≤ m_Source.size()` (see `Inv`). -/
def Lexer.LastLexeme (l : Lexer) : List Char :=
  (l.m_Source.drop l.m_TokenStart).take (l.m_Cursor - l.m_TokenStart)

/-- `Lexer::MakeToken`. -/
def Lexer.MakeToken (l : Lexer) (type : TokenType) : Lexer :=
  let token : Token :=
    { Lexeme := l.LastLexeme
      Line := l.m_Line
      Position := l.m_TokenStart
      Type_ := type }
  { l with m_Tokens := l.m_Tokens ++ [token] }

/-- `Lexer::Operator`. -/
def Lexer.Operator (l : Lexer) : Lexer :=
  let op := l.Current
  let l1 := l.Advance.2
  if op = '+' then l1.MakeToken TokenType.Add
  else if op = '-' then l1.MakeToken TokenType.Sub
  else if op = '*' then l1.MakeToken TokenType.Mul
  else if op = '/' then l1.MakeToken TokenType.Div
  else l1

/-- The loop of `Lexer::Identifier`. -/
def Lexer.IdentifierLoop : Nat → Lexer → Option Lexer
  | 0, _ => none
  | fuel + 1, l =>
    if isalnum l.Current then Lexer.IdentifierLoop fuel l.Advance.2 else some l

/-- `Lexer::Identifier`. -/
def Lexer.Identifier (l : Lexer) : Option Lexer :=
  (Lexer.IdentifierLoop (l.m_Source.length - l.m_Cursor + 1) l).map
    fun l1 => l1.MakeToken TokenType.Value

/-- The loop of `Lexer::Number`. -/
def Lexer.NumberLoop : Nat → Lexer → Option Lexer
  | 0, _ => none
  | fuel + 1, l =>
    if isdigit l.Current then Lexer.NumberLoop fuel l.Advance.2 else some l

/-- `Lexer::Number`. -/
def Lexer.Number (l : Lexer) : Option Lexer :=
  (Lexer.NumberLoop (l.m_Source.length - l.m_Cursor + 1) l).map
    fun l1 => l1.MakeToken TokenType.Value

/-- The characters of the string literal that `Lexer::String` searches: comma, bang, at,
hash, dollar, percent, caret, ampersand, star, both parentheses, underscore, plus, equals,
minus, slash, backslash, both brackets, both braces, bar, question mark, greater, less,
comma, equals, period, backquote, tilde, semicolon, colon, single quote. -/
def stringPunct : List Char :=
  ",!@#$%^&*()_+=-/\\[]\x7b\x7d|?><,=.\x60~;:\x27".toList

/-- The loop of `Lexer::String`. -/
def Lexer.StringLoop : Nat → Lexer → Option Lexer
  | 0, _ => none
  | fuel + 1, l =>
    if isalpha l.Current || stringPunct.contains l.Current then
      match l.Advance.2.Trim with
      | none => none
      | some l1 => Lexer.StringLoop fuel l1
    else
      some l

/-- `Lexer::String`. Its `return` after the diagnostic leaves `String` only. -/
def Lexer.String (l : Lexer) : Option Lexer :=
  let l1 := l.Advance.2
  let l2 := { l1 with m_TokenStart := l1.m_TokenStart + 1 }
  match Lexer.StringLoop (l2.m_Source.length - l2.m_Cursor + 1) l2 with
  | none => none
  | some l3 =>
    if l3.IsAtEnd || l3.Current != DQUOTE then
      some { l3 with
        out := l3.out ++ [SCP_Error unterminated l3.m_Filename l3.m_Line l3.m_Cursor] }
    else
      some (l3.MakeToken TokenType.Value).Advance.2

/-- The characters of the local `std::string operators` of `ScanTokens`. -/
def operators : List Char :=
  "+-*/".toList

/-- The loop of `Lexer::ScanTokens`; the `return` of the last branch ends the scan. -/
def Lexer.ScanTokensLoop : Nat → Lexer → Option Lexer
  | 0, _ => none
  | fuel + 1, l =>
    if l.IsAtEnd then
      some l
    else
      match l.Trim with
      | none => none
      | some l1 =>
        let l2 := { l1 with m_TokenStart := l1.m_Cursor }
        let first := l2.Current
        if operators.contains first then
          Lexer.ScanTokensLoop fuel l2.Operator
        else if isdigit first then
          match l2.Number with
          | none => none
          | some l3 => Lexer.ScanTokensLoop fuel l3
        else if isalpha first then
          match l2.Identifier with
          | none => none
          | some l3 => Lexer.ScanTokensLoop fuel l3
        else if first = DQUOTE then
          match l2.String with
          | none => none
          | some l3 => Lexer.ScanTokensLoop fuel l3
        else
          some { l2 with
            out := l2.out ++
              [SCP_Error (unknownSymbol first) l2.m_Filename l2.m_Line l2.m_Cursor] }

/-- `Lexer::ScanTokens`. -/
def Lexer.ScanTokens (l : Lexer) : Option Lexer :=
  Lexer.ScanTokensLoop (l.m_Source.length - l.m_Cursor + 1) l

/-- The sample input of `main`. -/
def sampleInput : List Char :=
  ['1', ' ', '+', ' ', '2', ' ', DQUOTE, 'H', 'e', 'l', 'l', 'o', ',', ' ',
   'W', 'o', 'r', 'l', 'd', '!', DQUOTE]

/-- Observation of a finished scan: what was written to `std::cout`, and `GetTokens`. -/
def report (l : Lexer) : List String × List Token :=
  (l.out, l.GetTokens)

/-! ## Auxiliary definitions of the proofs -/

/-- Length of the longest run of characters satisfying `p` from offset `c` on. -/
def runLen (p : Char → Bool) (s : List Char) (c : Nat) : Nat :=
  ((s.drop c).takeWhile p).length

/-- Number of newlines in the longest run of whitespace from offset `c` on. -/
def runNewlines (s : List Char) (c : Nat) : Nat :=
  ((s.drop c).takeWhile isspace).count NEWLINE

/-- A character of `stringPunct` or a letter: what the loop of `String` consumes. -/
def isStringChar (c : Char) : Bool :=
  isalpha c || stringPunct.contains c

/-- The state of an iteration of `ScanTokens` after `Trim()` and
`m_TokenStart = m_Cursor`. -/
def Lexer.afterTrim (l : Lexer) : Lexer :=
  { l with
    m_Cursor := l.m_Cursor + runLen isspace l.m_Source l.m_Cursor
    m_Line := l.m_Line + runNewlines l.m_Source l.m_Cursor
    m_TokenStart := l.m_Cursor + runLen isspace l.m_Source l.m_Cursor }

/-- The state after `Number()` or `Identifier()`, `p` being the class the loop tests. -/
def Lexer.afterRun (p : Char → Bool) (l : Lexer) : Lexer :=
  { l with m_Cursor := l.m_Cursor + runLen p l.m_Source l.m_Cursor }.MakeToken TokenType.Value

/-- The state after the `return` of the last branch of `ScanTokens`. -/
def Lexer.afterUnknown (l : Lexer) : Lexer :=
  { l with
    out := l.out ++ [SCP_Error (unknownSymbol l.Current) l.m_Filename l.m_Line l.m_Cursor] }

/-- The state `String` ends in, given the state `l3` its loop ended in. -/
def Lexer.afterString (l3 : Lexer) : Lexer :=
  if l3.IsAtEnd || l3.Current != DQUOTE then
    { l3 with out := l3.out ++ [SCP_Error unterminated l3.m_Filename l3.m_Line l3.m_Cursor] }
  else
    (l3.MakeToken TokenType.Value).Advance.2

/-- What holds of every token made from the source `s`: its lexeme is the slice of `s`
at its position, and its line is one plus the newlines of `s` before the end of the
lexeme. -/
def TokenOK (s : List Char) (t : Token) : Prop :=
  t.Position + t.Lexeme.length ≤ s.length ∧
  t.Lexeme = (s.drop t.Position).take t.Lexeme.length ∧
  t.Line = 1 + (s.take (t.Position + t.Lexeme.length)).count NEWLINE

/-- The invariant of a lexer over the source `s`. -/
def Inv (s : List Char) (l : Lexer) : Prop :=
  l.m_Source = s ∧
  l.m_TokenStart ≤ l.m_Cursor ∧
  l.m_Cursor ≤ s.length ∧
  l.m_Line = 1 + (s.take l.m_Cursor).count NEWLINE ∧
  ∀ t ∈ l.m_Tokens, TokenOK s t

/-- The quoted string whose content is `a`, a newline, `b`. -/
def twoLineString : List Char :=
  [DQUOTE, 'a', NEWLINE, 'b', DQUOTE]

/-- The quoted string whose content is `a1b`. -/
def quotedA1B : List Char :=
  [DQUOTE, 'a', '1', 'b', DQUOTE]

/-- The bounds of the cursor: `m_TokenStart ≤ m_Cursor ≤ m_Source.size()`. -/
def Bounds (l : Lexer) : Prop :=
  l.m_TokenStart ≤ l.m_Cursor ∧ l.m_Cursor ≤ l.m_Source.length

/-- The states in which the loop of `ScanTokens` is left: at the end of the source, or
just after the diagnostic of the last branch, the cursor being on a character of none of
the classes of the dispatch. -/
def Final (l : Lexer) : Prop :=
  l.IsAtEnd = true ∨
  (l.m_TokenStart = l.m_Cursor ∧ isspace l.Current = false ∧
    operators.contains l.Current = false ∧ isdigit l.Current = false ∧
    isalpha l.Current = false ∧ l.Current ≠ DQUOTE ∧
    l.out.getLast? = some (SCP_Error (unknownSymbol l.Current) l.m_Filename l.m_Line l.m_Cursor))

/-- The token that `Operator` makes of the operator character `c` found at offset `i` of
line 1. -/
def IsOpToken (c : Char) (i : Nat) (t : Token) : Prop :=
  t.Lexeme = [c] ∧ t.Position = i ∧ t.Line = 1 ∧
  ((c = '+' ∧ t.Type_ = TokenType.Add) ∨ (c = '-' ∧ t.Type_ = TokenType.Sub) ∨
   (c = '*' ∧ t.Type_ = TokenType.Mul) ∨ (c = '/' ∧ t.Type_ = TokenType.Div))

/-- The token `a` comes before the token `b` in the source and does not overlap it. -/
def Before (a b : Token) : Prop :=
  a.Position < b.Position ∧ a.Position + a.Lexeme.length ≤ b.Position

/-- The tokens `ts` are in source order without overlap, and all start and end before
the offset `c`. -/
def OrdUpTo (c : Nat) (ts : List Token) : Prop :=
  ts.Pairwise Before ∧ ∀ a ∈ ts, a.Position < c ∧ a.Position + a.Lexeme.length ≤ c

/-- The tokens of the lexer are ordered up to its cursor. -/
def Ordered (l : Lexer) : Prop :=
  OrdUpTo l.m_Cursor l.m_Tokens

/-- The kinds of token that the scan makes: Value, or an operator kind with the lexeme
of its operator. -/
def KindOK (t : Token) : Prop :=
  t.Type_ = TokenType.Value ∨ (t.Type_ = TokenType.Add ∧ t.Lexeme = ['+']) ∨
  (t.Type_ = TokenType.Sub ∧ t.Lexeme = ['-']) ∨ (t.Type_ = TokenType.Mul ∧ t.Lexeme = ['*']) ∨
  (t.Type_ = TokenType.Div ∧ t.Lexeme = ['/'])

/-- As long as no diagnostic was written, the scan of `s` has its cursor at the start or
just after a character that is not whitespace. -/
def NoDiagYet (s : List Char) (l : Lexer) : Prop :=
  l.m_Source = s ∧ l.m_Cursor ≤ s.length ∧
  (l.out = [] → l.m_Cursor = 0 ∨ isspace (s.getD (l.m_Cursor - 1) NUL) = false)

/-- After a first diagnostic `d`, the scan of `s` has made tokens at offset 2 or later
only, and `d` is still the first text written. -/
def AfterFirstDiag (s : List Char) (d : String) (l : Lexer) : Prop :=
  l.m_Source = s ∧ 1 ≤ l.m_Cursor ∧ (∀ t ∈ l.m_Tokens, 2 ≤ t.Position) ∧
  l.out.head? = some d

/-- The lexer `l` with `o` for what was written to `std::cout`. -/
def withOut (o : List String) (l : Lexer) : Lexer :=
  { l with out := o }

/-- The data members of the lexer alone: nothing written. -/
def eraseOut (l : Lexer) : Lexer :=
  withOut [] l

/-- A file system in which no file can be opened. -/
def noFiles : String → Option (List Char) :=
  fun _ => none

/-! ## Reading the source at the cursor -/

theorem getD_pos_lt (p : Char → Bool) (hp : p NUL = false) (s : List Char) (c : Nat)
    (h : p (s.getD c NUL) = true) : c < s.length := by
  by_contra hc
  rw [List.getD_eq_default _ _ (by omega)] at h
  simp [hp] at h

theorem takeWhile_drop_pos (p : Char → Bool) (hp : p NUL = false) (s : List Char) (c : Nat)
    (h : p (s.getD c NUL) = true) :
    (s.drop c).takeWhile p = s.getD c NUL :: (s.drop (c + 1)).takeWhile p := by
  have hc := getD_pos_lt p hp s c h
  rw [List.getD_eq_getElem _ _ hc] at h ⊢
  rw [List.drop_eq_getElem_cons hc, List.takeWhile_cons_of_pos h]

theorem takeWhile_drop_neg (p : Char → Bool) (s : List Char) (c : Nat)
    (h : p (s.getD c NUL) = false) : (s.drop c).takeWhile p = [] := by
  by_cases hc : c < s.length
  · rw [List.getD_eq_getElem _ _ hc] at h
    rw [List.drop_eq_getElem_cons hc, List.takeWhile_cons_of_neg (by simp [h])]
  · rw [List.drop_eq_nil_of_le (by omega)]
    rfl

theorem isspace_NUL : isspace NUL = false := by decide
theorem isdigit_NUL : isdigit NUL = false := by decide
theorem isalnum_NUL : isalnum NUL = false := by decide
theorem isalpha_NUL : isalpha NUL = false := by decide

/-- `Advance` moves the cursor by one exactly when it is before the end. -/
theorem Advance_snd (l : Lexer) :
    l.Advance.2 = if l.m_Cursor < l.m_Source.length then { l with m_Cursor := l.m_Cursor + 1 } else l := by
  unfold Lexer.Advance Lexer.IsAtEnd
  by_cases h : l.m_Cursor < l.m_Source.length
  · simp [h, Nat.not_le_of_lt h]
  · simp [h, Nat.le_of_not_lt h]

/-! ## Closed forms of the three simple loops -/

theorem runLen_pos (p : Char → Bool) (hp : p NUL = false) (s : List Char) (c : Nat)
    (h : p (s.getD c NUL) = true) : runLen p s c = runLen p s (c + 1) + 1 := by
  unfold runLen
  rw [takeWhile_drop_pos p hp s c h, List.length_cons]

theorem runLen_neg (p : Char → Bool) (s : List Char) (c : Nat)
    (h : ¬ p (s.getD c NUL) = true) : runLen p s c = 0 := by
  unfold runLen
  rw [takeWhile_drop_neg p s c (by simpa using h), List.length_nil]

theorem runNewlines_pos (s : List Char) (c : Nat) (h : isspace (s.getD c NUL) = true) :
    runNewlines s c = runNewlines s (c + 1) + (if s.getD c NUL = NEWLINE then 1 else 0) := by
  unfold runNewlines
  rw [takeWhile_drop_pos isspace isspace_NUL s c h, List.count_cons]
  by_cases hn : s.getD c NUL = NEWLINE
  · rw [hn]; simp
  · have hb : (s.getD c NUL == NEWLINE) = false := by simpa using hn
    rw [if_neg hn, hb]
    rfl

theorem runNewlines_neg (s : List Char) (c : Nat) (h : ¬ isspace (s.getD c NUL) = true) :
    runNewlines s c = 0 := by
  unfold runNewlines
  rw [takeWhile_drop_neg isspace s c (by simpa using h), List.count_nil]

theorem NumberLoop_eq (fuel : Nat) (l : Lexer) (hf : l.m_Source.length - l.m_Cursor < fuel) :
    Lexer.NumberLoop fuel l =
      some { l with m_Cursor := l.m_Cursor + runLen isdigit l.m_Source l.m_Cursor } := by
  induction fuel generalizing l with
  | zero => omega
  | succ n ih =>
    unfold Lexer.NumberLoop
    by_cases h : isdigit l.Current = true
    · have hc := getD_pos_lt isdigit isdigit_NUL _ _ h
      rw [if_pos h, Advance_snd, if_pos hc, ih _ (by simp only []; omega),
        runLen_pos isdigit isdigit_NUL _ _ h]
      simp only [Option.some.injEq, Lexer.mk.injEq, true_and, and_true]
      omega
    · rw [if_neg h, runLen_neg isdigit _ _ h]
      rfl

theorem IdentifierLoop_eq (fuel : Nat) (l : Lexer)
    (hf : l.m_Source.length - l.m_Cursor < fuel) :
    Lexer.IdentifierLoop fuel l =
      some { l with m_Cursor := l.m_Cursor + runLen isalnum l.m_Source l.m_Cursor } := by
  induction fuel generalizing l with
  | zero => omega
  | succ n ih =>
    unfold Lexer.IdentifierLoop
    by_cases h : isalnum l.Current = true
    · have hc := getD_pos_lt isalnum isalnum_NUL _ _ h
      rw [if_pos h, Advance_snd, if_pos hc, ih _ (by simp only []; omega),
        runLen_pos isalnum isalnum_NUL _ _ h]
      simp only [Option.some.injEq, Lexer.mk.injEq, true_and, and_true]
      omega
    · rw [if_neg h, runLen_neg isalnum _ _ h]
      rfl

theorem TrimLoop_eq (fuel : Nat) (l : Lexer) (hf : l.m_Source.length - l.m_Cursor < fuel) :
    Lexer.TrimLoop fuel l =
      some { l with
        m_Cursor := l.m_Cursor + runLen isspace l.m_Source l.m_Cursor
        m_Line := l.m_Line + runNewlines l.m_Source l.m_Cursor } := by
  induction fuel generalizing l with
  | zero => omega
  | succ n ih =>
    unfold Lexer.TrimLoop
    by_cases h : isspace l.Current = true
    · have hc := getD_pos_lt isspace isspace_NUL _ _ h
      rw [if_pos h, runLen_pos isspace isspace_NUL _ _ h, runNewlines_pos _ _ h]
      by_cases hn : l.Current = NEWLINE
      · have hn2 : l.m_Source.getD l.m_Cursor NUL = NEWLINE := hn
        simp only [if_pos hn, if_pos hn2]
        rw [Advance_snd, if_pos hc, ih _ (by simp only []; omega)]
        simp only [Option.some.injEq, Lexer.mk.injEq, true_and, and_true]
        omega
      · have hn2 : ¬ l.m_Source.getD l.m_Cursor NUL = NEWLINE := hn
        simp only [if_neg hn, if_neg hn2]
        rw [Advance_snd, if_pos hc, ih _ (by simp only []; omega)]
        simp only [Option.some.injEq, Lexer.mk.injEq, true_and, and_true]
        omega
    · rw [if_neg h, runLen_neg isspace _ _ h, runNewlines_neg _ _ h]
      rfl

theorem Trim_eq (l : Lexer) :
    l.Trim =
      some { l with
        m_Cursor := l.m_Cursor + runLen isspace l.m_Source l.m_Cursor
        m_Line := l.m_Line + runNewlines l.m_Source l.m_Cursor } :=
  TrimLoop_eq _ l (by omega)

theorem Number_eq (l : Lexer) :
    l.Number =
      some ({ l with m_Cursor := l.m_Cursor + runLen isdigit l.m_Source l.m_Cursor }.MakeToken
        TokenType.Value) := by
  unfold Lexer.Number
  rw [NumberLoop_eq _ l (by omega)]
  rfl

theorem Identifier_eq (l : Lexer) :
    l.Identifier =
      some ({ l with m_Cursor := l.m_Cursor + runLen isalnum l.m_Source l.m_Cursor }.MakeToken
        TokenType.Value) := by
  unfold Lexer.Identifier
  rw [IdentifierLoop_eq _ l (by omega)]
  rfl

/-! ## Character classes are disjoint -/

theorem isStringChar_NUL : isStringChar NUL = false := by decide

theorem operators_facts :
    ∀ c ∈ operators, isspace c = false ∧ isdigit c = false ∧ isalpha c = false ∧ c ≠ DQUOTE := by
  decide

theorem stringPunct_facts :
    ∀ c ∈ stringPunct, isspace c = false ∧ isdigit c = false ∧ c ≠ DQUOTE := by
  decide

theorem toNat_DQUOTE : DQUOTE.toNat = 34 := by decide

theorem toNat_NEWLINE : NEWLINE.toNat = 10 := by decide

theorem isspace_NEWLINE : isspace NEWLINE = true := by decide

theorem isdigit_facts (c : Char) (h : isdigit c = true) :
    isspace c = false ∧ isalpha c = false ∧ c ≠ DQUOTE ∧ operators.contains c = false ∧
      isStringChar c = false := by
  have hop : operators.contains c = false := by
    by_contra hc
    have hm : c ∈ operators := by simpa using hc
    have := (operators_facts c hm).2.1
    simp [h] at this
  have hsp : stringPunct.contains c = false := by
    by_contra hc
    have hm : c ∈ stringPunct := by simpa using hc
    have := (stringPunct_facts c hm).2.1
    simp [h] at this
  have hq : c ≠ DQUOTE := by
    intro hc
    rw [hc] at h
    exact absurd h (by decide)
  simp only [isdigit, Bool.and_eq_true, decide_eq_true_eq] at h
  refine ⟨?_, ?_, hq, hop, ?_⟩
  · simp only [isspace, Bool.or_eq_false_iff, Bool.and_eq_false_iff, beq_eq_false_iff_ne,
      decide_eq_false_iff_not]
    omega
  · simp only [isalpha, Bool.or_eq_false_iff, Bool.and_eq_false_iff, decide_eq_false_iff_not]
    omega
  · have ha : isalpha c = false := by
      simp only [isalpha, Bool.or_eq_false_iff, Bool.and_eq_false_iff, decide_eq_false_iff_not]
      omega
    rw [isStringChar, ha, hsp]
    rfl

theorem isalpha_facts (c : Char) (h : isalpha c = true) :
    isspace c = false ∧ isdigit c = false ∧ c ≠ DQUOTE ∧ operators.contains c = false ∧
      isalnum c = true ∧ isStringChar c = true ∧ c ≠ NEWLINE := by
  have hop : operators.contains c = false := by
    by_contra hc
    have hm : c ∈ operators := by simpa using hc
    have := (operators_facts c hm).2.2.1
    simp [h] at this
  have hq : c ≠ DQUOTE := by
    intro hc
    rw [hc] at h
    exact absurd h (by decide)
  have hn : c ≠ NEWLINE := by
    intro hc
    rw [hc] at h
    exact absurd h (by decide)
  have h2 := h
  simp only [isalpha, Bool.or_eq_true, Bool.and_eq_true, decide_eq_true_eq] at h2
  refine ⟨?_, ?_, hq, hop, by simp [isalnum, h], by simp [isStringChar, h], hn⟩
  · simp only [isspace, Bool.or_eq_false_iff, Bool.and_eq_false_iff, beq_eq_false_iff_ne,
      decide_eq_false_iff_not]
    omega
  · simp only [isdigit, Bool.and_eq_false_iff, decide_eq_false_iff_not]
    omega

theorem isStringChar_facts (c : Char) (h : isStringChar c = true) :
    isspace c = false ∧ c ≠ DQUOTE ∧ c ≠ NEWLINE := by
  have hs : isspace c = false ∧ c ≠ DQUOTE := by
    simp only [isStringChar, Bool.or_eq_true] at h
    rcases h with h | h
    · exact ⟨(isalpha_facts c h).1, (isalpha_facts c h).2.2.1⟩
    · have hm : c ∈ stringPunct := by simpa using h
      exact ⟨(stringPunct_facts c hm).1, (stringPunct_facts c hm).2.2⟩
  refine ⟨hs.1, hs.2, ?_⟩
  intro hc
  rw [hc, isspace_NEWLINE] at hs
  exact absurd hs.1 (by simp)

/-! ## One iteration of the loop of `ScanTokens` -/

theorem scan_end (n : Nat) (l : Lexer) (h : l.IsAtEnd = true) :
    Lexer.ScanTokensLoop (n + 1) l = some l := by
  rw [Lexer.ScanTokensLoop]
  rw [if_pos h]

theorem scan_step (n : Nat) (l : Lexer) (h : l.IsAtEnd = false) :
    Lexer.ScanTokensLoop (n + 1) l =
      if operators.contains l.afterTrim.Current = true then
        Lexer.ScanTokensLoop n l.afterTrim.Operator
      else if isdigit l.afterTrim.Current = true then
        (l.afterTrim.Number).bind (Lexer.ScanTokensLoop n)
      else if isalpha l.afterTrim.Current = true then
        (l.afterTrim.Identifier).bind (Lexer.ScanTokensLoop n)
      else if l.afterTrim.Current = DQUOTE then
        (l.afterTrim.String).bind (Lexer.ScanTokensLoop n)
      else
        some l.afterTrim.afterUnknown := by
  rw [Lexer.ScanTokensLoop, if_neg (Bool.eq_false_iff.mp h), Trim_eq]
  show (if operators.contains l.afterTrim.Current = true then
        Lexer.ScanTokensLoop n l.afterTrim.Operator
      else if isdigit l.afterTrim.Current = true then
        (match l.afterTrim.Number with
          | none => none
          | some l3 => Lexer.ScanTokensLoop n l3)
      else if isalpha l.afterTrim.Current = true then
        (match l.afterTrim.Identifier with
          | none => none
          | some l3 => Lexer.ScanTokensLoop n l3)
      else if l.afterTrim.Current = DQUOTE then
        (match l.afterTrim.String with
          | none => none
          | some l3 => Lexer.ScanTokensLoop n l3)
      else
        some l.afterTrim.afterUnknown) = _
  cases l.afterTrim.Number <;> cases l.afterTrim.Identifier <;> cases l.afterTrim.String <;> rfl

theorem scan_operator (n : Nat) (l : Lexer) (h : l.IsAtEnd = false)
    (hop : operators.contains l.afterTrim.Current = true) :
    Lexer.ScanTokensLoop (n + 1) l = Lexer.ScanTokensLoop n l.afterTrim.Operator := by
  rw [scan_step n l h, if_pos hop]

theorem scan_digit (n : Nat) (l : Lexer) (h : l.IsAtEnd = false)
    (hd : isdigit l.afterTrim.Current = true) :
    Lexer.ScanTokensLoop (n + 1) l = Lexer.ScanTokensLoop n (l.afterTrim.afterRun isdigit) := by
  have hop := (isdigit_facts _ hd).2.2.2.1
  rw [scan_step n l h, if_neg (Bool.eq_false_iff.mp hop), if_pos hd, Number_eq]
  rfl

theorem scan_alpha (n : Nat) (l : Lexer) (h : l.IsAtEnd = false)
    (ha : isalpha l.afterTrim.Current = true) :
    Lexer.ScanTokensLoop (n + 1) l = Lexer.ScanTokensLoop n (l.afterTrim.afterRun isalnum) := by
  have hf := isalpha_facts _ ha
  rw [scan_step n l h, if_neg (Bool.eq_false_iff.mp hf.2.2.2.1),
    if_neg (Bool.eq_false_iff.mp hf.2.1), if_pos ha, Identifier_eq]
  rfl

theorem scan_quote (n : Nat) (l : Lexer) (h : l.IsAtEnd = false)
    (hq : l.afterTrim.Current = DQUOTE) :
    Lexer.ScanTokensLoop (n + 1) l = (l.afterTrim.String).bind (Lexer.ScanTokensLoop n) := by
  rw [scan_step n l h, hq, if_neg (by decide), if_neg (by decide), if_neg (by decide),
    if_pos rfl]

theorem scan_unknown (n : Nat) (l : Lexer) (h : l.IsAtEnd = false)
    (hop : operators.contains l.afterTrim.Current = false)
    (hd : isdigit l.afterTrim.Current = false) (ha : isalpha l.afterTrim.Current = false)
    (hq : l.afterTrim.Current ≠ DQUOTE) :
    Lexer.ScanTokensLoop (n + 1) l = some l.afterTrim.afterUnknown := by
  rw [scan_step n l h, if_neg (Bool.eq_false_iff.mp hop), if_neg (Bool.eq_false_iff.mp hd),
    if_neg (Bool.eq_false_iff.mp ha), if_neg hq]

/-! ## Runs inside a decomposed source -/

theorem takeWhile_run (p : Char → Bool) (run rest : List Char)
    (h1 : ∀ x ∈ run, p x = true) (h2 : ∀ x, rest.head? = some x → p x = false) :
    (run ++ rest).takeWhile p = run := by
  rw [List.takeWhile_append_of_pos h1]
  cases rest with
  | nil => simp
  | cons y t =>
    rw [List.takeWhile_cons_of_neg (by simp [h2 y rfl]), List.append_nil]

theorem runLen_of (p : Char → Bool) (s : List Char) (c : Nat) (pre run rest : List Char)
    (hs : s = pre ++ (run ++ rest)) (hc : c = pre.length)
    (h1 : ∀ x ∈ run, p x = true) (h2 : ∀ x, rest.head? = some x → p x = false) :
    runLen p s c = run.length := by
  subst hs hc
  unfold runLen
  rw [List.drop_left, takeWhile_run p run rest h1 h2]

theorem runNewlines_of (s : List Char) (c : Nat) (pre run rest : List Char)
    (hs : s = pre ++ (run ++ rest)) (hc : c = pre.length)
    (h1 : ∀ x ∈ run, isspace x = true) (h2 : ∀ x, rest.head? = some x → isspace x = false) :
    runNewlines s c = run.count NEWLINE := by
  subst hs hc
  unfold runNewlines
  rw [List.drop_left, takeWhile_run isspace run rest h1 h2]

theorem getD_of (s : List Char) (c : Nat) (pre rest : List Char)
    (hs : s = pre ++ rest) (hc : c = pre.length) : s.getD c NUL = rest.headD NUL := by
  subst hs hc
  cases rest with
  | nil => simp
  | cons y t =>
    rw [List.getD_eq_getElem _ _ (by simp), List.getElem_append_right (Nat.le_refl _)]
    simp

theorem SCP_Error_script (msg : String) (line cursor : Nat) :
    SCP_Error msg "script" line cursor =
      "<script:" ++ toString line ++ ":" ++ toString cursor ++ "> Error: " ++ msg ++ "\n" := by
  unfold SCP_Error
  apply String.ext
  simp

theorem isspace_not_digit (c : Char) (h : isspace c = true) : isdigit c = false := by
  by_contra hd
  have := (isdigit_facts c (by simpa using hd)).1
  simp [h] at this

/-! ## A number, whitespace, then an unknown symbol -/

/-- C4: on `d ++ w ++ [c] ++ r`, with `d` a non-empty run of digits, `w` a run of
whitespace and `c` an ASCII character of no class the dispatch knows, the scan yields the
one token Value `d` at 1:0 and the one diagnostic `unknown symbol` for `c`, at line one
plus the newlines of `w` and cursor `|d| + |w|`; nothing of `r` is scanned. -/
theorem C4_unknown_symbol (d w r : List Char) (c : Char)
    (hd0 : d ≠ []) (hd : ∀ x ∈ d, isdigit x = true) (hw : ∀ x ∈ w, isspace x = true)
    (_hascii : c.toNat < 128) (hcs : isspace c = false) (hco : c ∉ operators)
    (hcd : isdigit c = false) (hca : isalpha c = false) (hcq : c ≠ DQUOTE) :
    (Lexer.ofSource (d ++ w ++ [c] ++ r)).ScanTokens.map report =
      some (["<script:" ++ toString (1 + w.count NEWLINE) ++ ":" ++
              toString (d.length + w.length) ++ "> Error: unknown symbol \x27" ++
              String.singleton c ++ "\x27\n"],
            [⟨d, 1, 0, TokenType.Value⟩]) := by
  obtain ⟨x, d1, hxd⟩ := List.exists_cons_of_ne_nil hd0
  have hx : isdigit x = true := hd x (by simp [hxd])
  have hdl : d.length = d1.length + 1 := by simp [hxd]
  generalize hs : d ++ w ++ [c] ++ r = s
  have hs1 : s = [] ++ ([] ++ (x :: (d1 ++ w ++ [c] ++ r))) := by simp [← hs, hxd]
  have hs2 : s = [] ++ (d ++ (w ++ [c] ++ r)) := by simp [← hs]
  have hs3 : s = d ++ (w ++ (c :: r)) := by simp [← hs]
  have hlen : s.length = d.length + w.length + r.length + 1 := by simp [← hs]; omega
  have hxs : isspace x = false := (isdigit_facts x hx).1
  -- the first iteration
  have ht0 : runLen isspace s 0 = 0 :=
    runLen_of isspace s 0 [] [] _ hs1 rfl (by simp) (by simpa using hxs)
  have hn0 : runNewlines s 0 = 0 :=
    runNewlines_of s 0 [] [] _ hs1 rfl (by simp) (by simpa using hxs)
  have hc0 : s[0]?.getD NUL = x := by
    rw [← List.getD_eq_getElem?_getD, getD_of s 0 [] _ (by simpa using hs1) rfl]
    rfl
  have hr0 : runLen isdigit s 0 = d.length := by
    refine runLen_of isdigit s 0 [] d _ hs2 rfl hd ?_
    intro y hy
    cases w with
    | nil =>
      have : y = c := by simpa using hy.symm
      rw [this]; exact hcd
    | cons z w1 =>
      have : y = z := by simpa using hy.symm
      rw [this]; exact isspace_not_digit z (hw z (by simp))
  have ha0 : (Lexer.ofSource s).afterTrim = Lexer.ofSource s := by
    simp [Lexer.afterTrim, Lexer.ofSource, ht0, hn0]
  have hl1 : (Lexer.ofSource s).afterRun isdigit =
      { Lexer.ofSource s with
        m_Cursor := d.length
        m_Tokens := [⟨d, 1, 0, TokenType.Value⟩] } := by
    simp [Lexer.afterRun, Lexer.ofSource, Lexer.MakeToken, Lexer.LastLexeme, hr0]
    rw [hs3]
    simp
  -- the second iteration
  have ht1 : runLen isspace s d.length = w.length :=
    runLen_of isspace s _ d w _ hs3 rfl hw (by simpa using hcs)
  have hn1 : runNewlines s d.length = w.count NEWLINE :=
    runNewlines_of s _ d w _ hs3 rfl hw (by simpa using hcs)
  have hc1 : s[d.length + w.length]?.getD NUL = c := by
    rw [← List.getD_eq_getElem?_getD, getD_of s _ (d ++ w) (c :: r) (by simp [hs3]) (by simp)]
    rfl
  have hfuel : (Lexer.ofSource s).m_Source.length - (Lexer.ofSource s).m_Cursor + 1 =
      (d1.length + w.length + r.length + 1) + 1 + 1 := by
    simp [Lexer.ofSource, hlen, hdl]
    omega
  unfold Lexer.ScanTokens
  rw [hfuel, scan_digit _ _ (by simp [Lexer.IsAtEnd, Lexer.ofSource, hlen])
    (by rw [ha0]; simpa [Lexer.Current, Lexer.ofSource, hc0] using hx), ha0, hl1,
    scan_unknown _ _ (by simp [Lexer.IsAtEnd, Lexer.ofSource, hlen]; omega)
      (by simpa [Lexer.afterTrim, Lexer.Current, Lexer.ofSource, ht1, hc1] using hco)
      (by simpa [Lexer.afterTrim, Lexer.Current, Lexer.ofSource, ht1, hc1] using hcd)
      (by simpa [Lexer.afterTrim, Lexer.Current, Lexer.ofSource, ht1, hc1] using hca)
      (by simpa [Lexer.afterTrim, Lexer.Current, Lexer.ofSource, ht1, hc1] using hcq)]
  simp only [Option.map_some', report, Lexer.GetTokens, Lexer.afterUnknown, Lexer.afterTrim,
    Lexer.Current, Lexer.ofSource, ht1, hn1, List.nil_append, SCP_Error_script,
    unknownSymbol]
  refine congrArg some (Prod.ext ?_ rfl)
  simp only [List.cons.injEq, and_true]
  apply String.ext
  simp [hc1]

/-- C4 at the input `1 % 2`: the token Value `1` and the diagnostic
`<script:1:2> Error: unknown symbol` for `%`. -/
theorem C4_unknown_symbol_witness :
    (Lexer.ofSource "1 % 2".toList).ScanTokens.map report =
      some (["<script:1:2> Error: unknown symbol \x27%\x27\n"],
            [⟨['1'], 1, 0, TokenType.Value⟩]) :=
  C4_unknown_symbol ['1'] [' '] [' ', '2'] '%' (by decide) (by decide) (by decide) (by decide)
    (by decide) (by decide) (by decide) (by decide) (by decide)

/-! ## A single alphanumeric run -/

theorem isalnum_not_space (c : Char) (h : isalnum c = true) : isspace c = false := by
  simp only [isalnum, Bool.or_eq_true] at h
  rcases h with h | h
  · exact (isalpha_facts c h).1
  · exact (isdigit_facts c h).1

theorem isdigit_alnum (c : Char) (h : isdigit c = true) : isalnum c = true := by
  simp [isalnum, h]

/-- Scanning a source that is one run of the class `p`, from the start. -/
theorem afterRun_whole (p : Char → Bool) (s : List Char) (hp : ∀ x ∈ s, p x = true) :
    (Lexer.ofSource s).afterRun p =
      { Lexer.ofSource s with
        m_Cursor := s.length
        m_Tokens := [⟨s, 1, 0, TokenType.Value⟩] } := by
  have hr : runLen p s 0 = s.length :=
    runLen_of p s 0 [] s [] (by simp) rfl hp (by simp)
  simp [Lexer.afterRun, Lexer.ofSource, Lexer.MakeToken, Lexer.LastLexeme, hr]

theorem afterTrim_ofSource (s : List Char) (h : ∀ x, s.head? = some x → isspace x = false) :
    (Lexer.ofSource s).afterTrim = Lexer.ofSource s := by
  have ht : runLen isspace s 0 = 0 := runLen_of isspace s 0 [] [] s rfl rfl (by simp) h
  have hn : runNewlines s 0 = 0 := runNewlines_of s 0 [] [] s rfl rfl (by simp) h
  simp [Lexer.afterTrim, Lexer.ofSource, ht, hn]

/-- C6: a non-empty source of letters and digits that starts with a letter, or is all
digits, is scanned without diagnostic into the single token Value at 1:0 whose lexeme
is the whole source. -/
theorem C6_single_run (s : List Char) (h0 : s ≠ []) (hs : ∀ x ∈ s, isalnum x = true)
    (h : (∀ x, s.head? = some x → isalpha x = true) ∨ ∀ x ∈ s, isdigit x = true) :
    (Lexer.ofSource s).ScanTokens.map report = some ([], [⟨s, 1, 0, TokenType.Value⟩]) := by
  obtain ⟨x, t, hxt⟩ := List.exists_cons_of_ne_nil h0
  have hx : isalnum x = true := hs x (by simp [hxt])
  have hat : (Lexer.ofSource s).afterTrim = Lexer.ofSource s := by
    apply afterTrim_ofSource
    intro y hy
    have : y = x := by simpa [hxt] using hy.symm
    rw [this]
    exact isalnum_not_space x hx
  have hcur : (Lexer.ofSource s).Current = x := by
    simp [Lexer.Current, Lexer.ofSource, hxt]
  have hfuel : (Lexer.ofSource s).m_Source.length - (Lexer.ofSource s).m_Cursor + 1 =
      t.length + 1 + 1 := by
    simp [Lexer.ofSource, hxt]
  have hne : (Lexer.ofSource s).IsAtEnd = false := by
    simp [Lexer.IsAtEnd, Lexer.ofSource, hxt]
  unfold Lexer.ScanTokens
  rw [hfuel]
  rcases h with h | h
  · have ha : isalpha x = true := h x (by simp [hxt])
    rw [scan_alpha _ _ hne (by rw [hat, hcur]; exact ha), hat, afterRun_whole isalnum s hs,
      scan_end _ _ (by simp [Lexer.IsAtEnd, Lexer.ofSource])]
    rfl
  · have hd : isdigit x = true := h x (by simp [hxt])
    rw [scan_digit _ _ hne (by rw [hat, hcur]; exact hd), hat, afterRun_whole isdigit s h,
      scan_end _ _ (by simp [Lexer.IsAtEnd, Lexer.ofSource])]
    rfl

/-- C6 at the identifier `a1b` (a letter first, then a digit, then a letter). -/
theorem C6_single_run_witness :
    (Lexer.ofSource ['a', '1', 'b']).ScanTokens.map report =
      some ([], [⟨['a', '1', 'b'], 1, 0, TokenType.Value⟩]) :=
  C6_single_run ['a', '1', 'b'] (by decide) (by decide) (Or.inl (by decide))

/-! ## The loop of `String` -/

theorem StringLoop_step (n : Nat) (l : Lexer) (h : isStringChar l.Current = true) :
    Lexer.StringLoop (n + 1) l =
      Lexer.StringLoop n
        { l with
          m_Cursor := l.m_Cursor + 1 + runLen isspace l.m_Source (l.m_Cursor + 1)
          m_Line := l.m_Line + runNewlines l.m_Source (l.m_Cursor + 1) } := by
  have hc := getD_pos_lt isStringChar isStringChar_NUL _ _ h
  have h1 : (isalpha l.Current || stringPunct.contains l.Current) = true := h
  rw [Lexer.StringLoop, if_pos h1, Advance_snd, if_pos hc, Trim_eq]

theorem StringLoop_stop (n : Nat) (l : Lexer) (h : isStringChar l.Current = false) :
    Lexer.StringLoop (n + 1) l = some l := by
  have h1 : (isalpha l.Current || stringPunct.contains l.Current) = false := h
  rw [Lexer.StringLoop, if_neg (Bool.eq_false_iff.mp h1)]

theorem dropWhile_head (p : Char → Bool) (a : List Char) :
    ∀ x, (a.dropWhile p).head? = some x → p x = false := by
  induction a with
  | nil => simp
  | cons y t ih =>
    intro x hx
    by_cases hy : p y = true
    · rw [List.dropWhile_cons_of_pos hy] at hx
      exact ih x hx
    · rw [List.dropWhile_cons_of_neg hy] at hx
      have : y = x := by simpa using hx
      rw [← this]
      simpa using hy

/-- The loop of `String` over a content `c` of string characters and whitespace that does
not start with whitespace, followed by the end of the source or by a character that is
neither: it stops right after `c`, having counted the newlines of `c`. -/
theorem StringLoop_run (k : Nat) : ∀ (c pre rest : List Char) (l : Lexer) (fuel : Nat),
    c.length ≤ k → l.m_Source = pre ++ (c ++ rest) → l.m_Cursor = pre.length →
    (∀ x ∈ c, isStringChar x = true ∨ isspace x = true) →
    (∀ x, c.head? = some x → isspace x = false) →
    (∀ x, rest.head? = some x → isStringChar x = false ∧ isspace x = false) →
    c.length < fuel →
    Lexer.StringLoop fuel l =
      some { l with
        m_Cursor := pre.length + c.length
        m_Line := l.m_Line + c.count NEWLINE } := by
  induction k with
  | zero =>
    intro c pre rest l fuel hk hs hc _ _ hrest hfuel
    have hc0 : c = [] := List.length_eq_zero.mp (Nat.le_zero.mp hk)
    subst hc0
    obtain ⟨n, rfl⟩ : ∃ n, fuel = n + 1 := ⟨fuel - 1, by omega⟩
    have hcur : l.Current = rest.headD NUL := getD_of _ _ pre rest (by simpa using hs) hc
    have hstop : isStringChar l.Current = false := by
      rw [hcur]
      cases rest with
      | nil => exact isStringChar_NUL
      | cons y t => exact (hrest y rfl).1
    rw [StringLoop_stop n l hstop]
    simp [← hc]
  | succ k ih =>
    intro c pre rest l fuel hk hs hc hall hhead hrest hfuel
    cases c with
    | nil =>
      obtain ⟨n, rfl⟩ : ∃ n, fuel = n + 1 := ⟨fuel - 1, by omega⟩
      have hcur : l.Current = rest.headD NUL := getD_of _ _ pre rest (by simpa using hs) hc
      have hstop : isStringChar l.Current = false := by
        rw [hcur]
        cases rest with
        | nil => exact isStringChar_NUL
        | cons y t => exact (hrest y rfl).1
      rw [StringLoop_stop n l hstop]
      simp [← hc]
    | cons x c1 =>
      obtain ⟨n, rfl⟩ : ∃ n, fuel = n + 1 := ⟨fuel - 1, by omega⟩
      have hxs : isspace x = false := hhead x rfl
      have hx : isStringChar x = true := by
        rcases hall x (by simp) with h | h
        · exact h
        · rw [hxs] at h; exact absurd h (by simp)
      have hxn : x ≠ NEWLINE := (isStringChar_facts x hx).2.2
      have hcur : l.Current = x := getD_of _ _ pre (x :: (c1 ++ rest)) (by simpa using hs) hc
      have hsplit : c1.takeWhile isspace ++ c1.dropWhile isspace = c1 :=
        List.takeWhile_append_dropWhile isspace c1
      have hs2 : l.m_Source =
          (pre ++ [x]) ++ (c1.takeWhile isspace ++ (c1.dropWhile isspace ++ rest)) := by
        rw [hs, ← List.append_assoc (c1.takeWhile isspace), hsplit]
        simp
      have hw : ∀ y ∈ c1.takeWhile isspace, isspace y = true :=
        fun y hy => List.mem_takeWhile_imp hy
      have hnext : ∀ y, (c1.dropWhile isspace ++ rest).head? = some y → isspace y = false := by
        intro y hy
        cases hd : c1.dropWhile isspace with
        | nil =>
          rw [hd] at hy
          exact (hrest y (by simpa using hy)).2
        | cons z t =>
          rw [hd] at hy
          have hz : y = z := by simpa using hy.symm
          rw [hz]
          exact dropWhile_head isspace c1 z (by rw [hd]; rfl)
      have hrl : runLen isspace l.m_Source (l.m_Cursor + 1) = (c1.takeWhile isspace).length :=
        runLen_of isspace _ _ (pre ++ [x]) _ _ hs2 (by simp [hc]) hw hnext
      have hrn : runNewlines l.m_Source (l.m_Cursor + 1) =
          (c1.takeWhile isspace).count NEWLINE :=
        runNewlines_of _ _ (pre ++ [x]) _ _ hs2 (by simp [hc]) hw hnext
      have hlen : c1.length = (c1.takeWhile isspace).length + (c1.dropWhile isspace).length := by
        rw [← List.length_append, hsplit]
      have hcnt : c1.count NEWLINE =
          (c1.takeWhile isspace).count NEWLINE + (c1.dropWhile isspace).count NEWLINE := by
        rw [← List.count_append, hsplit]
      rw [StringLoop_step n l (by rw [hcur]; exact hx), hrl, hrn,
        ih (c1.dropWhile isspace) (pre ++ x :: c1.takeWhile isspace) rest _ n
          (by simp only [List.length_cons] at hk; omega)
          (by simp only [hs2]; simp)
          (by simp [hc]; omega)
          (fun y hy => hall y (List.mem_cons_of_mem x (List.dropWhile_subset isspace hy)))
          (dropWhile_head isspace c1)
          hrest
          (by simp only [List.length_cons] at hfuel; omega)]
      simp only [Option.some.injEq, Lexer.mk.injEq, true_and, and_true, List.length_append,
        List.length_cons, List.count_cons]
      have hb : (x == NEWLINE) = false := by simpa using hxn
      rw [hb]
      simp only [Bool.false_eq_true, if_false]
      omega

theorem String_of (l l3 : Lexer) (hc : l.m_Cursor < l.m_Source.length)
    (h : Lexer.StringLoop (l.m_Source.length - (l.m_Cursor + 1) + 1)
      { l with m_Cursor := l.m_Cursor + 1, m_TokenStart := l.m_TokenStart + 1 } = some l3) :
    l.String = some l3.afterString := by
  unfold Lexer.String
  rw [Advance_snd, if_pos hc]
  simp only []
  rw [h]
  simp only [Lexer.afterString]
  split <;> rfl

/-- The whole of `String` on an opening quote followed by a content as in
`StringLoop_run`. -/
theorem String_run (c rest : List Char) (l : Lexer) (pre : List Char)
    (hs : l.m_Source = pre ++ DQUOTE :: (c ++ rest)) (hc : l.m_Cursor = pre.length)
    (hall : ∀ x ∈ c, isStringChar x = true ∨ isspace x = true)
    (hhead : ∀ x, c.head? = some x → isspace x = false)
    (hrest : ∀ x, rest.head? = some x → isStringChar x = false ∧ isspace x = false) :
    l.String =
      some (Lexer.afterString
        { l with
          m_Cursor := pre.length + 1 + c.length
          m_TokenStart := l.m_TokenStart + 1
          m_Line := l.m_Line + c.count NEWLINE }) := by
  have hlen : l.m_Source.length = pre.length + 1 + c.length + rest.length := by
    rw [hs]; simp; omega
  apply String_of l _ (by omega)
  rw [StringLoop_run c.length c (pre ++ [DQUOTE]) rest _ _ (Nat.le_refl _)
    (by simp [hs]) (by simp [hc]) hall hhead hrest (by omega)]
  simp

theorem afterString_quote (l3 : Lexer) (hc : l3.m_Cursor < l3.m_Source.length)
    (hq : l3.Current = DQUOTE) :
    l3.afterString = { l3.MakeToken TokenType.Value with m_Cursor := l3.m_Cursor + 1 } := by
  have hcond : (l3.IsAtEnd || l3.Current != DQUOTE) = false := by
    simp [Lexer.IsAtEnd, hq, hc]
  unfold Lexer.afterString
  rw [if_neg (Bool.eq_false_iff.mp hcond), Advance_snd, if_pos (by simpa [Lexer.MakeToken] using hc)]
  rfl

theorem afterString_err (l3 : Lexer) (h : l3.m_Source.length ≤ l3.m_Cursor ∨ l3.Current ≠ DQUOTE) :
    l3.afterString =
      { l3 with out := l3.out ++ [SCP_Error unterminated l3.m_Filename l3.m_Line l3.m_Cursor] } := by
  have hcond : (l3.IsAtEnd || l3.Current != DQUOTE) = true := by
    rcases h with h | h
    · simp [Lexer.IsAtEnd, h]
    · simp [h]
  unfold Lexer.afterString
  rw [if_pos hcond]

/-! ## A terminated string literal -/

/-- C5: for a content `c` of letters, whitespace and characters of `stringPunct` that is
empty or does not start with whitespace, the scan of `c` between double quotes writes no
diagnostic and yields the single token Value with lexeme `c` (whitespace kept, quotes
left out) at position 1, and the cursor ends at the end of the source. -/
theorem C5_string_literal (c : List Char)
    (hall : ∀ x ∈ c, isalpha x = true ∨ isspace x = true ∨ x ∈ stringPunct)
    (hhead : ∀ x, c.head? = some x → isspace x = false) :
    ∃ l, (Lexer.ofSource ([DQUOTE] ++ c ++ [DQUOTE])).ScanTokens = some l ∧
      l.out = [] ∧
      l.GetTokens = [⟨c, 1 + c.count NEWLINE, 1, TokenType.Value⟩] ∧
      l.m_Cursor = l.m_Source.length := by
  generalize hs : [DQUOTE] ++ c ++ [DQUOTE] = s
  have hs0 : s = [] ++ DQUOTE :: (c ++ [DQUOTE]) := by simp [← hs]
  have hs1 : s = [DQUOTE] ++ (c ++ [DQUOTE]) := by simp [← hs]
  have hs2 : s = ([DQUOTE] ++ c) ++ [DQUOTE] := by simp [← hs]
  have hlen : s.length = c.length + 2 := by simp [← hs]
  have hall2 : ∀ x ∈ c, isStringChar x = true ∨ isspace x = true := by
    intro x hx
    rcases hall x hx with h | h | h
    · exact Or.inl (by simp [isStringChar, h])
    · exact Or.inr h
    · exact Or.inl (by simp [isStringChar, h])
  have hat : (Lexer.ofSource s).afterTrim = Lexer.ofSource s := by
    apply afterTrim_ofSource
    intro y hy
    have : y = DQUOTE := by simpa [hs0] using hy.symm
    rw [this]
    decide
  have hcur : (Lexer.ofSource s).Current = DQUOTE := by
    simp [Lexer.Current, Lexer.ofSource, hs0]
  have hstr := String_run c [DQUOTE] (Lexer.ofSource s) [] hs0 rfl hall2 hhead
    (by intro x hx; have : x = DQUOTE := by simpa using hx.symm
        rw [this]; decide)
  have hl3 : ({ Lexer.ofSource s with
        m_Cursor := ([] : List Char).length + 1 + c.length
        m_TokenStart := (Lexer.ofSource s).m_TokenStart + 1
        m_Line := (Lexer.ofSource s).m_Line + c.count NEWLINE } : Lexer) =
      ⟨s, "script", c.length + 1, 1, 0, 1 + c.count NEWLINE, [], []⟩ := by
    simp [Lexer.ofSource]
    omega
  have hc3 : s.getD (c.length + 1) NUL = DQUOTE := by
    rw [getD_of s _ ([DQUOTE] ++ c) [DQUOTE] hs2 (by simp)]
    rfl
  have hafter : Lexer.afterString ⟨s, "script", c.length + 1, 1, 0, 1 + c.count NEWLINE, [], []⟩ =
      ⟨s, "script", c.length + 2, 1, 0, 1 + c.count NEWLINE,
        [⟨c, 1 + c.count NEWLINE, 1, TokenType.Value⟩], []⟩ := by
    have hlex2 : List.take c.length s.tail = c := by
      rw [hs1]; simp
    rw [afterString_quote ⟨s, "script", c.length + 1, 1, 0, 1 + c.count NEWLINE, [], []⟩
      (by simp only [hlen]; omega) hc3]
    simp [Lexer.MakeToken, Lexer.LastLexeme, hlex2]
  have hfuel : (Lexer.ofSource s).m_Source.length - (Lexer.ofSource s).m_Cursor + 1 =
      (c.length + 1) + 1 + 1 := by
    simp [Lexer.ofSource, hlen]
  refine ⟨⟨s, "script", c.length + 2, 1, 0, 1 + c.count NEWLINE,
    [⟨c, 1 + c.count NEWLINE, 1, TokenType.Value⟩], []⟩, ?_, rfl, rfl, hlen.symm⟩
  unfold Lexer.ScanTokens
  rw [hfuel, scan_quote _ _ (by simp [Lexer.IsAtEnd, Lexer.ofSource, hlen])
    (by rw [hat, hcur]), hat, hstr, hl3, hafter, Option.some_bind,
    scan_end _ _ (by simp [Lexer.IsAtEnd, hlen])]

/-- C5 at the content `a, b` followed by a newline and `c`: written between double quotes
it is scanned into one token that keeps the space and the newline. -/
theorem C5_string_literal_witness :
    ∃ l, (Lexer.ofSource ([DQUOTE] ++ ['a', ',', ' ', 'b', NEWLINE, 'c'] ++ [DQUOTE])).ScanTokens
        = some l ∧
      l.out = [] ∧
      l.GetTokens = [⟨['a', ',', ' ', 'b', NEWLINE, 'c'],
        1 + ['a', ',', ' ', 'b', NEWLINE, 'c'].count NEWLINE, 1, TokenType.Value⟩] ∧
      l.m_Cursor = l.m_Source.length :=
  C5_string_literal ['a', ',', ' ', 'b', NEWLINE, 'c'] (by decide) (by decide)

/-! ## A string literal left open at the end of the source -/

theorem count_NEWLINE_alpha (u : List Char) (hu : ∀ x ∈ u, isalpha x = true) :
    u.count NEWLINE = 0 := by
  apply List.count_eq_zero_of_not_mem
  intro hm
  exact absurd (hu NEWLINE hm) (by decide)

/-- C9: a double quote followed by a run `u` of letters and nothing else is scanned into
no token at all and the single diagnostic `unterminated string literal` at line 1 and
cursor `1 + |u|`, the length of the input. -/
theorem C9_unterminated_at_end (u : List Char) (hu : ∀ x ∈ u, isalpha x = true) :
    ([DQUOTE] ++ u).length = 1 + u.length ∧
    (Lexer.ofSource ([DQUOTE] ++ u)).ScanTokens.map report =
      some (["<script:1:" ++ toString (1 + u.length) ++
              "> Error: unterminated string literal\n"], []) := by
  refine ⟨by simp; omega, ?_⟩
  generalize hs : [DQUOTE] ++ u = s
  have hs0 : s = [] ++ DQUOTE :: (u ++ []) := by simp [← hs]
  have hlen : s.length = u.length + 1 := by simp [← hs]
  have hcnt := count_NEWLINE_alpha u hu
  have hall2 : ∀ x ∈ u, isStringChar x = true ∨ isspace x = true :=
    fun x hx => Or.inl (isalpha_facts x (hu x hx)).2.2.2.2.2.1
  have hhead : ∀ x, u.head? = some x → isspace x = false :=
    fun x hx => (isalpha_facts x (hu x (List.mem_of_mem_head? hx))).1
  have hat : (Lexer.ofSource s).afterTrim = Lexer.ofSource s := by
    apply afterTrim_ofSource
    intro y hy
    have : y = DQUOTE := by simpa [hs0] using hy.symm
    rw [this]
    decide
  have hcur : (Lexer.ofSource s).Current = DQUOTE := by
    simp [Lexer.Current, Lexer.ofSource, hs0]
  have hstr := String_run u [] (Lexer.ofSource s) [] hs0 rfl hall2 hhead (by simp)
  have hl3 : ({ Lexer.ofSource s with
        m_Cursor := ([] : List Char).length + 1 + u.length
        m_TokenStart := (Lexer.ofSource s).m_TokenStart + 1
        m_Line := (Lexer.ofSource s).m_Line + u.count NEWLINE } : Lexer) =
      ⟨s, "script", u.length + 1, 1, 0, 1, [], []⟩ := by
    simp [Lexer.ofSource, hcnt]
    omega
  have hafter : Lexer.afterString ⟨s, "script", u.length + 1, 1, 0, 1, [], []⟩ =
      ⟨s, "script", u.length + 1, 1, 0, 1, [],
        [SCP_Error unterminated "script" 1 (u.length + 1)]⟩ := by
    rw [afterString_err ⟨s, "script", u.length + 1, 1, 0, 1, [], []⟩
      (Or.inl (by simp only [hlen]; omega))]
    rfl
  have hfuel : (Lexer.ofSource s).m_Source.length - (Lexer.ofSource s).m_Cursor + 1 =
      u.length + 1 + 1 := by
    simp [Lexer.ofSource, hlen]
  unfold Lexer.ScanTokens
  rw [hfuel, scan_quote _ _ (by simp [Lexer.IsAtEnd, Lexer.ofSource, hlen])
    (by rw [hat, hcur]), hat, hstr, hl3, hafter, Option.some_bind,
    scan_end _ _ (by simp [Lexer.IsAtEnd, hlen])]
  simp only [Option.map_some', report, Lexer.GetTokens, SCP_Error_script, unterminated]
  refine congrArg some (Prod.ext ?_ rfl)
  simp only [List.cons.injEq, and_true]
  have h1 : toString (1 : Nat) = "1" := by decide
  apply String.ext
  simp [Nat.add_comm, h1]

/-- C9 at the input made of a double quote and `abc`. -/
theorem C9_unterminated_at_end_witness :
    ([DQUOTE] ++ ['a', 'b', 'c']).length = 1 + ['a', 'b', 'c'].length ∧
    (Lexer.ofSource ([DQUOTE] ++ ['a', 'b', 'c'])).ScanTokens.map report =
      some (["<script:1:" ++ toString (1 + ['a', 'b', 'c'].length) ++
              "> Error: unterminated string literal\n"], []) :=
  C9_unterminated_at_end ['a', 'b', 'c'] (by decide)

/-! ## Invariant of the scan -/

theorem Inv_ofSource (s : List Char) : Inv s (Lexer.ofSource s) := by
  simp [Inv, Lexer.ofSource]

theorem count_take_succ (s : List Char) (c : Nat) (hc : c < s.length) :
    (s.take (c + 1)).count NEWLINE =
      (s.take c).count NEWLINE + (if s.getD c NUL = NEWLINE then 1 else 0) := by
  rw [List.take_succ, List.count_append, List.getD_eq_getElem _ _ hc,
    List.getElem?_eq_getElem hc]
  by_cases h : s[c] = NEWLINE
  · simp [h]
  · have hb : (s[c] == NEWLINE) = false := by simpa using h
    simp [h, List.count_cons, hb]

/-- Moving the cursor over a character that is not a newline keeps the invariant. -/
theorem Inv_Advance (s : List Char) (l : Lexer) (h : Inv s l) (hn : l.Current ≠ NEWLINE) :
    Inv s l.Advance.2 ∧ l.m_Cursor ≤ l.Advance.2.m_Cursor := by
  obtain ⟨h1, h2, h3, h4, h5⟩ := h
  rw [Advance_snd]
  by_cases hc : l.m_Cursor < l.m_Source.length
  · rw [if_pos hc]
    have hc2 : l.m_Cursor < s.length := by rw [← h1]; exact hc
    have hn2 : ¬ s.getD l.m_Cursor NUL = NEWLINE := by
      rw [← h1]; exact hn
    refine ⟨⟨h1, Nat.le_succ_of_le h2, hc2, ?_, h5⟩, Nat.le_succ _⟩
    show l.m_Line = 1 + (s.take (l.m_Cursor + 1)).count NEWLINE
    rw [count_take_succ s _ hc2, if_neg hn2, h4]
    rfl
  · rw [if_neg hc]
    exact ⟨⟨h1, h2, h3, h4, h5⟩, Nat.le_refl _⟩

/-- Making a token keeps the invariant. -/
theorem Inv_MakeToken (s : List Char) (l : Lexer) (type : TokenType) (h : Inv s l) :
    Inv s (l.MakeToken type) := by
  obtain ⟨h1, h2, h3, h4, h5⟩ := h
  refine ⟨h1, h2, h3, h4, ?_⟩
  intro t ht
  simp only [Lexer.MakeToken, List.mem_append, List.mem_singleton] at ht
  rcases ht with ht | ht
  · exact h5 t ht
  · have hlen : l.LastLexeme.length = l.m_Cursor - l.m_TokenStart := by
      simp only [Lexer.LastLexeme, List.length_take, List.length_drop, h1]
      omega
    subst ht
    refine ⟨?_, ?_, ?_⟩
    · show l.m_TokenStart + l.LastLexeme.length ≤ s.length
      omega
    · show l.LastLexeme = (s.drop l.m_TokenStart).take l.LastLexeme.length
      rw [hlen, Lexer.LastLexeme, h1]
    · show l.m_Line = 1 + (s.take (l.m_TokenStart + l.LastLexeme.length)).count NEWLINE
      rw [hlen, h4, Nat.add_sub_cancel' h2]

theorem take_length_takeWhile (p : Char → Bool) (a : List Char) :
    a.take (a.takeWhile p).length = a.takeWhile p := by
  induction a with
  | nil => rfl
  | cons x t ih =>
    by_cases hx : p x = true
    · rw [List.takeWhile_cons_of_pos hx, List.length_cons, List.take_succ_cons, ih]
    · rw [List.takeWhile_cons_of_neg hx]
      rfl

theorem take_add_runLen (p : Char → Bool) (s : List Char) (c : Nat) :
    s.take (c + runLen p s c) = s.take c ++ (s.drop c).takeWhile p := by
  rw [List.take_add, runLen, take_length_takeWhile]

theorem runLen_le (p : Char → Bool) (s : List Char) (c : Nat) (hc : c ≤ s.length) :
    c + runLen p s c ≤ s.length := by
  have h : ((s.drop c).takeWhile p).length + ((s.drop c).dropWhile p).length =
      (s.drop c).length := by
    rw [← List.length_append, List.takeWhile_append_dropWhile]
  rw [List.length_drop] at h
  unfold runLen
  omega

/-- The state reached from `l` by a loop that moves the cursor over the longest run of
the class `p` and adds `n` to the line counter keeps the invariant when `n` is the number
of newlines of the run. -/
theorem Inv_run (p : Char → Bool) (s : List Char) (l : Lexer) (n : Nat) (h : Inv s l)
    (hn : ((s.drop l.m_Cursor).takeWhile p).count NEWLINE = n) :
    Inv s { l with
      m_Cursor := l.m_Cursor + runLen p l.m_Source l.m_Cursor
      m_Line := l.m_Line + n } := by
  obtain ⟨h1, h2, h3, h4, h5⟩ := h
  refine ⟨h1, Nat.le_trans h2 (Nat.le_add_right _ _), ?_, ?_, h5⟩
  · show l.m_Cursor + runLen p l.m_Source l.m_Cursor ≤ s.length
    rw [h1]
    exact runLen_le p s _ h3
  · show l.m_Line + n = 1 + (s.take (l.m_Cursor + runLen p l.m_Source l.m_Cursor)).count NEWLINE
    rw [h1, take_add_runLen, List.count_append, hn, h4]
    omega

theorem takeWhile_no_newline (p : Char → Bool) (hp : p NEWLINE = false) (a : List Char) :
    (a.takeWhile p).count NEWLINE = 0 := by
  apply List.count_eq_zero_of_not_mem
  intro hm
  have := List.mem_takeWhile_imp hm
  rw [hp] at this
  exact absurd this (by simp)

theorem Inv_afterTrim (s : List Char) (l : Lexer) (h : Inv s l) :
    Inv s l.afterTrim ∧ l.m_Cursor ≤ l.afterTrim.m_Cursor ∧
      l.afterTrim.m_TokenStart = l.afterTrim.m_Cursor := by
  have h1 := h.1
  have hr := Inv_run isspace s l (runNewlines l.m_Source l.m_Cursor) h (by rw [h1]; rfl)
  obtain ⟨r1, _, r3, r4, r5⟩ := hr
  exact ⟨⟨r1, Nat.le_refl _, r3, r4, r5⟩, Nat.le_add_right _ _, rfl⟩

theorem Inv_afterRun (p : Char → Bool) (hp : p NEWLINE = false) (s : List Char) (l : Lexer)
    (h : Inv s l) :
    Inv s (l.afterRun p) := by
  have hr := Inv_run p s l 0 h (takeWhile_no_newline p hp _)
  unfold Lexer.afterRun
  apply Inv_MakeToken
  exact hr

theorem afterRun_progress (p : Char → Bool) (hp : p NUL = false) (l : Lexer)
    (h : p l.Current = true) : l.m_Cursor < (l.afterRun p).m_Cursor := by
  have := runLen_pos p hp l.m_Source l.m_Cursor h
  simp only [Lexer.afterRun, Lexer.MakeToken]
  omega

theorem Inv_Operator (s : List Char) (l : Lexer) (h : Inv s l)
    (hop : operators.contains l.Current = true) :
    Inv s l.Operator ∧ l.m_Cursor < l.Operator.m_Cursor := by
  have hm : l.Current ∈ operators := by simpa using hop
  have hn : l.Current ≠ NEWLINE := by
    intro hc
    rw [hc] at hm
    exact absurd hm (by decide)
  have hlt : l.m_Cursor < l.m_Source.length := by
    by_contra hc
    have h0 : l.Current = NUL := List.getD_eq_default _ _ (by omega)
    rw [h0] at hm
    exact absurd hm (by decide)
  have ha := (Inv_Advance s l h hn).1
  have hcur : l.Advance.2.m_Cursor = l.m_Cursor + 1 := by
    rw [Advance_snd, if_pos hlt]
  unfold Lexer.Operator
  simp only []
  split
  · exact ⟨Inv_MakeToken s _ _ ha, by simp only [Lexer.MakeToken]; omega⟩
  · split
    · exact ⟨Inv_MakeToken s _ _ ha, by simp only [Lexer.MakeToken]; omega⟩
    · split
      · exact ⟨Inv_MakeToken s _ _ ha, by simp only [Lexer.MakeToken]; omega⟩
      · split
        · exact ⟨Inv_MakeToken s _ _ ha, by simp only [Lexer.MakeToken]; omega⟩
        · exact ⟨ha, by omega⟩

theorem StringLoop_spec (s : List Char) (fuel : Nat) : ∀ l : Lexer, Inv s l →
    l.m_Source.length - l.m_Cursor < fuel →
    ∃ l3, Lexer.StringLoop fuel l = some l3 ∧ Inv s l3 ∧ l.m_Cursor ≤ l3.m_Cursor := by
  induction fuel with
  | zero => intro l _ hf; omega
  | succ n ih =>
    intro l h hf
    by_cases hsc : isStringChar l.Current = true
    · have hlt := getD_pos_lt isStringChar isStringChar_NUL _ _ hsc
      have hadv := (Inv_Advance s l h (isStringChar_facts _ hsc).2.2).1
      rw [Advance_snd, if_pos hlt] at hadv
      have hsrc : l.m_Source = s := h.1
      have hX := Inv_run isspace s _ (runNewlines l.m_Source (l.m_Cursor + 1)) hadv
        (by rw [hsrc]; rfl)
      obtain ⟨l3, e3, i3, c3⟩ := ih
        { l with
          m_Cursor := l.m_Cursor + 1 + runLen isspace l.m_Source (l.m_Cursor + 1)
          m_Line := l.m_Line + runNewlines l.m_Source (l.m_Cursor + 1) }
        hX (by simp only []; omega)
      refine ⟨l3, ?_, i3, ?_⟩
      · rw [StringLoop_step n l hsc, e3]
      · simp only [] at c3
        omega
    · refine ⟨l, StringLoop_stop n l (by simpa using hsc), h, Nat.le_refl _⟩

theorem Inv_afterString (s : List Char) (l3 : Lexer) (h : Inv s l3) :
    Inv s l3.afterString ∧ l3.m_Cursor ≤ l3.afterString.m_Cursor := by
  unfold Lexer.afterString
  split
  · exact ⟨h, Nat.le_refl _⟩
  · rename_i hcond
    have hq : l3.Current = DQUOTE := by
      by_contra hne
      exact hcond (by simp [hne])
    have hm := Inv_MakeToken s l3 TokenType.Value h
    have ha := Inv_Advance s _ hm
      (by show l3.Current ≠ NEWLINE
          rw [hq]; decide)
    exact ⟨ha.1, ha.2⟩

theorem String_spec (s : List Char) (l : Lexer) (h : Inv s l) (hq : l.Current = DQUOTE) :
    ∃ l1, l.String = some l1 ∧ Inv s l1 ∧ l.m_Cursor < l1.m_Cursor := by
  have hlt : l.m_Cursor < l.m_Source.length := by
    by_contra hc
    have h0 : l.Current = NUL := List.getD_eq_default _ _ (by omega)
    rw [h0] at hq
    exact absurd hq (by decide)
  have hadv := (Inv_Advance s l h (by rw [hq]; decide)).1
  rw [Advance_snd, if_pos hlt] at hadv
  obtain ⟨a1, a2, a3, a4, a5⟩ := hadv
  have h2 : Inv s { l with m_Cursor := l.m_Cursor + 1, m_TokenStart := l.m_TokenStart + 1 } :=
    ⟨a1, Nat.succ_le_succ h.2.1, a3, a4, a5⟩
  obtain ⟨l3, e3, i3, c3⟩ := StringLoop_spec s (l.m_Source.length - (l.m_Cursor + 1) + 1) _ h2
    (by simp only []; omega)
  have hA := Inv_afterString s l3 i3
  refine ⟨l3.afterString, String_of l l3 hlt e3, hA.1, ?_⟩
  have := hA.2
  simp only [] at c3
  omega

theorem ScanTokensLoop_spec (s : List Char) (fuel : Nat) : ∀ l : Lexer, Inv s l →
    l.m_Source.length - l.m_Cursor < fuel →
    ∃ l1, Lexer.ScanTokensLoop fuel l = some l1 ∧ Inv s l1 := by
  induction fuel with
  | zero => intro l _ hf; omega
  | succ n ih =>
    intro l h hf
    have hsrc : l.m_Source = s := h.1
    by_cases hend : l.IsAtEnd = true
    · exact ⟨l, scan_end n l hend, h⟩
    · have hend2 : l.IsAtEnd = false := by simpa using hend
      have hlt : l.m_Cursor < l.m_Source.length := by
        simpa [Lexer.IsAtEnd] using hend2
      obtain ⟨hi, hc, _⟩ := Inv_afterTrim s l h
      have hsrc2 : l.afterTrim.m_Source = l.m_Source := rfl
      by_cases hop : operators.contains l.afterTrim.Current = true
      · obtain ⟨io, co⟩ := Inv_Operator s _ hi hop
        have hsrc3 : l.afterTrim.Operator.m_Source = l.m_Source := by rw [io.1, hsrc]
        obtain ⟨l1, e1, i1⟩ := ih _ io (by rw [hsrc3]; omega)
        exact ⟨l1, by rw [scan_operator n l hend2 hop, e1], i1⟩
      · by_cases hd : isdigit l.afterTrim.Current = true
        · have ir := Inv_afterRun isdigit (by decide) s _ hi
          have cr := afterRun_progress isdigit isdigit_NUL _ hd
          have hsrc3 : (l.afterTrim.afterRun isdigit).m_Source = l.m_Source := by rw [ir.1, hsrc]
          obtain ⟨l1, e1, i1⟩ := ih _ ir (by rw [hsrc3]; omega)
          exact ⟨l1, by rw [scan_digit n l hend2 hd, e1], i1⟩
        · by_cases ha : isalpha l.afterTrim.Current = true
          · have ir := Inv_afterRun isalnum (by decide) s _ hi
            have cr := afterRun_progress isalnum isalnum_NUL _ (isalpha_facts _ ha).2.2.2.2.1
            have hsrc3 : (l.afterTrim.afterRun isalnum).m_Source = l.m_Source := by
              rw [ir.1, hsrc]
            obtain ⟨l1, e1, i1⟩ := ih _ ir (by rw [hsrc3]; omega)
            exact ⟨l1, by rw [scan_alpha n l hend2 ha, e1], i1⟩
          · by_cases hq : l.afterTrim.Current = DQUOTE
            · obtain ⟨l3, e3, i3, c3⟩ := String_spec s _ hi hq
              have hsrc3 : l3.m_Source = l.m_Source := by rw [i3.1, hsrc]
              obtain ⟨l1, e1, i1⟩ := ih _ i3 (by rw [hsrc3]; omega)
              exact ⟨l1, by rw [scan_quote n l hend2 hq, e3, Option.some_bind, e1], i1⟩
            · exact ⟨_, scan_unknown n l hend2 (by simpa using hop) (by simpa using hd)
                (by simpa using ha) hq, hi⟩

/-- Every scan returns, and what it returns satisfies the invariant. -/
theorem ScanTokens_spec (s : List Char) :
    ∃ l, (Lexer.ofSource s).ScanTokens = some l ∧ Inv s l :=
  ScanTokensLoop_spec s _ _ (Inv_ofSource s) (Nat.lt_succ_self _)

/-! ## Lexemes, positions and lines of the tokens of a scan -/

/-- C8: every token of a scan of `s` lies inside `s`, and its lexeme is the slice of `s`
that starts at its position and has the length of the lexeme. -/
theorem C8_lexeme_is_slice (s : List Char) :
    ∃ l, (Lexer.ofSource s).ScanTokens = some l ∧
      ∀ t ∈ l.GetTokens,
        t.Position + t.Lexeme.length ≤ s.length ∧
        t.Lexeme = (s.drop t.Position).take t.Lexeme.length := by
  obtain ⟨l, hl, hinv⟩ := ScanTokens_spec s
  exact ⟨l, hl, fun t ht => ⟨(hinv.2.2.2.2 t ht).1, (hinv.2.2.2.2 t ht).2.1⟩⟩

/-- C7, as the code has it: the line of every token of a scan of `s` is one plus the
newlines of `s` before the position of the token plus the newlines inside its lexeme,
which is the line at the end of the lexeme. -/
theorem C7_line_at_token_end (s : List Char) :
    ∃ l, (Lexer.ofSource s).ScanTokens = some l ∧
      ∀ t ∈ l.GetTokens,
        t.Line = 1 + (s.take t.Position).count NEWLINE + t.Lexeme.count NEWLINE := by
  obtain ⟨l, hl, hinv⟩ := ScanTokens_spec s
  refine ⟨l, hl, fun t ht => ?_⟩
  obtain ⟨_, h2, h3⟩ := hinv.2.2.2.2 t ht
  rw [h3, List.take_add, List.count_append, ← h2]
  omega

/-- C7 as stated fails on `twoLineString`: its one token starts at position 1, before
which there is no newline, and carries line 2. -/
theorem C7_line_at_token_start_fails :
    ∃ l, (Lexer.ofSource twoLineString).ScanTokens = some l ∧
      ¬ ∀ t ∈ l.GetTokens, t.Line = 1 + (twoLineString.take t.Position).count NEWLINE := by
  refine ⟨_, rfl, ?_⟩
  decide

/-! ## Scans that go on after a diagnostic, or report the end of the source -/

/-- C2 at the input of one space: the scan reads the NUL at the end of the source and
reports it as an unknown symbol. -/
theorem C2_space_reports_unknown_symbol :
    (Lexer.ofSource []).ScanTokens.map report = some ([], []) ∧
    (Lexer.ofSource [' ']).ScanTokens.map report =
      some (["<script:1:1> Error: unknown symbol \x27\x00\x27\n"], []) := by
  decide

/-- C3 at `quotedA1B`: `String` reports `unterminated string literal` at cursor 2 and has
made no token; the scan then goes on, makes the tokens `1` and `b` and reports a second
diagnostic at cursor 5. -/
theorem C3_scan_goes_on_after_unterminated :
    (Lexer.ofSource quotedA1B).String.map report =
      some (["<script:1:2> Error: unterminated string literal\n"], []) ∧
    (Lexer.ofSource quotedA1B).ScanTokens.map report =
      some (["<script:1:2> Error: unterminated string literal\n",
             "<script:1:5> Error: unterminated string literal\n"],
            [⟨['1'], 1, 2, TokenType.Value⟩, ⟨['b'], 1, 3, TokenType.Value⟩]) := by
  decide

/-- C10 at the quoted string whose content is `1`: the first diagnostic is
`unterminated string literal` at cursor 1, and the scan goes on to make the token Value
`1`, whose lexeme is the whole quoted content. -/
theorem C10_quoted_digit_becomes_token :
    (Lexer.ofSource [DQUOTE, '1', DQUOTE]).ScanTokens.map report =
      some (["<script:1:1> Error: unterminated string literal\n",
             "<script:1:3> Error: unterminated string literal\n"],
            [⟨['1'], 1, 1, TokenType.Value⟩]) := by
  decide

/-! ## What each routine does to the state, without the invariant -/

theorem getD_drop_add (s : List Char) (c k : Nat) :
    s.getD (c + k) NUL = (s.drop c).getD k NUL := by
  simp [List.getD_eq_getElem?_getD, List.getElem?_drop]

/-- A loop over the class `p` stops on a character that is not of the class. -/
theorem runLen_stop (p : Char → Bool) (hp : p NUL = false) (s : List Char) (c : Nat) :
    p (s.getD (c + runLen p s c) NUL) = false := by
  rw [getD_drop_add]
  unfold runLen
  generalize s.drop c = a
  induction a with
  | nil => simpa using hp
  | cons x t ih =>
    by_cases hx : p x = true
    · rw [List.takeWhile_cons_of_pos hx]
      simpa using ih
    · rw [List.takeWhile_cons_of_neg hx]
      simpa using hx

theorem Operator_eq (l : Lexer) (hop : operators.contains l.Current = true) :
    l.m_Cursor < l.m_Source.length ∧
    ∃ k, ((l.Current = '+' ∧ k = TokenType.Add) ∨ (l.Current = '-' ∧ k = TokenType.Sub) ∨
          (l.Current = '*' ∧ k = TokenType.Mul) ∨ (l.Current = '/' ∧ k = TokenType.Div)) ∧
      l.Operator = Lexer.MakeToken { l with m_Cursor := l.m_Cursor + 1 } k := by
  have hm : l.Current ∈ operators := by simpa using hop
  have hlt : l.m_Cursor < l.m_Source.length := by
    by_contra hc
    have h0 : l.Current = NUL := List.getD_eq_default _ _ (by omega)
    rw [h0] at hm
    exact absurd hm (by decide)
  refine ⟨hlt, ?_⟩
  have h4 : l.Current = '+' ∨ l.Current = '-' ∨ l.Current = '*' ∨ l.Current = '/' := by
    simpa [operators] using hm
  unfold Lexer.Operator
  rw [Advance_snd, if_pos hlt]
  rcases h4 with h | h | h | h
  · exact ⟨TokenType.Add, Or.inl ⟨h, rfl⟩, by simp [h]⟩
  · exact ⟨TokenType.Sub, Or.inr (Or.inl ⟨h, rfl⟩), by simp [h]⟩
  · exact ⟨TokenType.Mul, Or.inr (Or.inr (Or.inl ⟨h, rfl⟩)), by simp [h]⟩
  · exact ⟨TokenType.Div, Or.inr (Or.inr (Or.inr ⟨h, rfl⟩)), by simp [h]⟩

/-- The loop of `String` returns, and changes the cursor and the line counter only. -/
theorem StringLoop_frame (fuel : Nat) : ∀ l : Lexer,
    l.m_Source.length - l.m_Cursor < fuel →
    ∃ c3 ln, Lexer.StringLoop fuel l = some { l with m_Cursor := c3, m_Line := ln } ∧
      l.m_Cursor ≤ c3 ∧ (l.m_Cursor ≤ l.m_Source.length → c3 ≤ l.m_Source.length) ∧
      l.m_Line ≤ ln := by
  induction fuel with
  | zero => intro l hf; omega
  | succ n ih =>
    intro l hf
    by_cases hsc : isStringChar l.Current = true
    · have hlt := getD_pos_lt isStringChar isStringChar_NUL _ _ hsc
      have hle := runLen_le isspace l.m_Source (l.m_Cursor + 1) hlt
      obtain ⟨c3, ln, e3, h1, h2, h3⟩ := ih
        { l with
          m_Cursor := l.m_Cursor + 1 + runLen isspace l.m_Source (l.m_Cursor + 1)
          m_Line := l.m_Line + runNewlines l.m_Source (l.m_Cursor + 1) }
        (by simp only []; omega)
      refine ⟨c3, ln, ?_, ?_, ?_, ?_⟩
      · rw [StringLoop_step n l hsc, e3]
      · simp only [] at h1; omega
      · intro _; exact h2 hle
      · simp only [] at h3; omega
    · exact ⟨l.m_Cursor, l.m_Line, StringLoop_stop n l (by simpa using hsc), Nat.le_refl _,
        fun h => h, Nat.le_refl _⟩

/-- `String`, called on a double quote, returns one of two states: the diagnostic
written at the cursor `c3` where its loop stopped, or the token made of the slice up to
`c3` and the cursor moved past the closing quote found at `c3`. -/
theorem String_cases (l : Lexer) (hq : l.Current = DQUOTE) :
    ∃ c3 ln, l.m_Cursor + 1 ≤ c3 ∧ c3 ≤ l.m_Source.length ∧ l.m_Line ≤ ln ∧
      (l.String = some { l with
          m_Cursor := c3
          m_Line := ln
          m_TokenStart := l.m_TokenStart + 1
          out := l.out ++ [SCP_Error unterminated l.m_Filename ln c3] } ∨
       (c3 < l.m_Source.length ∧ l.m_Source.getD c3 NUL = DQUOTE ∧
        l.String = some { l with
          m_Cursor := c3 + 1
          m_Line := ln
          m_TokenStart := l.m_TokenStart + 1
          m_Tokens := l.m_Tokens ++
            [⟨(l.m_Source.drop (l.m_TokenStart + 1)).take (c3 - (l.m_TokenStart + 1)), ln,
              l.m_TokenStart + 1, TokenType.Value⟩] })) := by
  have hlt : l.m_Cursor < l.m_Source.length := by
    by_contra hc
    have h0 : l.Current = NUL := List.getD_eq_default _ _ (by omega)
    rw [h0] at hq
    exact absurd hq (by decide)
  obtain ⟨c3, ln, e3, h1, h2, h3⟩ := StringLoop_frame (l.m_Source.length - (l.m_Cursor + 1) + 1)
    { l with m_Cursor := l.m_Cursor + 1, m_TokenStart := l.m_TokenStart + 1 }
    (by simp only []; omega)
  have hs := String_of l _ hlt e3
  refine ⟨c3, ln, h1, h2 hlt, h3, ?_⟩
  by_cases hcond : l.m_Source.length ≤ c3 ∨ l.m_Source.getD c3 NUL ≠ DQUOTE
  · left
    rw [hs, afterString_err _ hcond]
  · right
    have hc3 : c3 < l.m_Source.length := by
      by_contra hc
      exact hcond (Or.inl (by omega))
    have hq3 : l.m_Source.getD c3 NUL = DQUOTE := by
      by_contra hc
      exact hcond (Or.inr hc)
    refine ⟨hc3, hq3, ?_⟩
    rw [hs, afterString_quote
      { l with m_Cursor := c3, m_Line := ln, m_TokenStart := l.m_TokenStart + 1 } hc3 hq3]
    rfl

/-! ## Induction over the iterations of `ScanTokens` -/

theorem Operator_source (l : Lexer) (hop : operators.contains l.Current = true) :
    l.Operator.m_Source = l.m_Source ∧ l.Operator.m_Cursor = l.m_Cursor + 1 := by
  obtain ⟨_, k, _, hk⟩ := Operator_eq l hop
  rw [hk]
  exact ⟨rfl, rfl⟩

theorem String_progress (l l1 : Lexer) (hq : l.Current = DQUOTE) (h : l.String = some l1) :
    l1.m_Source = l.m_Source ∧ l.m_Cursor < l1.m_Cursor := by
  obtain ⟨c3, ln, h1, _, _, hc⟩ := String_cases l hq
  rcases hc with hc | ⟨_, _, hc⟩
  · rw [hc] at h
    have := Option.some.inj h
    subst this
    exact ⟨rfl, by simp only []; omega⟩
  · rw [hc] at h
    have := Option.some.inj h
    subst this
    exact ⟨rfl, by simp only []; omega⟩

theorem String_total (l : Lexer) (hq : l.Current = DQUOTE) : ∃ l1, l.String = some l1 := by
  obtain ⟨c3, ln, _, _, _, hc⟩ := String_cases l hq
  rcases hc with hc | ⟨_, _, hc⟩
  · exact ⟨_, hc⟩
  · exact ⟨_, hc⟩

theorem afterTrim_cursor (l : Lexer) :
    l.afterTrim.m_Source = l.m_Source ∧ l.m_Cursor ≤ l.afterTrim.m_Cursor :=
  ⟨rfl, Nat.le_add_right _ _⟩

/-- A property that every branch of an iteration of `ScanTokens` carries from the state
at the head of the loop to the state at the end of the iteration holds when the loop
is left, and the loop is left. -/
theorem scan_induction (P : Lexer → Prop)
    (hO : ∀ l, P l → l.IsAtEnd = false → operators.contains l.afterTrim.Current = true →
      P l.afterTrim.Operator)
    (hN : ∀ l, P l → l.IsAtEnd = false → isdigit l.afterTrim.Current = true →
      P (l.afterTrim.afterRun isdigit))
    (hI : ∀ l, P l → l.IsAtEnd = false → isalpha l.afterTrim.Current = true →
      P (l.afterTrim.afterRun isalnum))
    (hS : ∀ l l1, P l → l.IsAtEnd = false → l.afterTrim.Current = DQUOTE →
      l.afterTrim.String = some l1 → P l1)
    (hU : ∀ l, P l → l.IsAtEnd = false → P l.afterTrim.afterUnknown)
    (fuel : Nat) : ∀ l : Lexer, P l → l.m_Source.length - l.m_Cursor < fuel →
    ∃ l1, Lexer.ScanTokensLoop fuel l = some l1 ∧ P l1 := by
  induction fuel with
  | zero => intro l _ hf; omega
  | succ n ih =>
    intro l h hf
    by_cases hend : l.IsAtEnd = true
    · exact ⟨l, scan_end n l hend, h⟩
    · have hend2 : l.IsAtEnd = false := by simpa using hend
      have hlt : l.m_Cursor < l.m_Source.length := by
        simpa [Lexer.IsAtEnd] using hend2
      obtain ⟨hsrc, hc⟩ := afterTrim_cursor l
      by_cases hop : operators.contains l.afterTrim.Current = true
      · obtain ⟨s1, c1⟩ := Operator_source _ hop
        obtain ⟨l1, e1, i1⟩ := ih _ (hO l h hend2 hop) (by rw [s1, c1, hsrc]; omega)
        exact ⟨l1, by rw [scan_operator n l hend2 hop, e1], i1⟩
      · by_cases hd : isdigit l.afterTrim.Current = true
        · have cr := afterRun_progress isdigit isdigit_NUL _ hd
          have hsrc3 : (l.afterTrim.afterRun isdigit).m_Source = l.m_Source := rfl
          obtain ⟨l1, e1, i1⟩ := ih _ (hN l h hend2 hd) (by rw [hsrc3]; omega)
          exact ⟨l1, by rw [scan_digit n l hend2 hd, e1], i1⟩
        · by_cases ha : isalpha l.afterTrim.Current = true
          · have cr := afterRun_progress isalnum isalnum_NUL _ (isalpha_facts _ ha).2.2.2.2.1
            have hsrc3 : (l.afterTrim.afterRun isalnum).m_Source = l.m_Source := rfl
            obtain ⟨l1, e1, i1⟩ := ih _ (hI l h hend2 ha) (by rw [hsrc3]; omega)
            exact ⟨l1, by rw [scan_alpha n l hend2 ha, e1], i1⟩
          · by_cases hq : l.afterTrim.Current = DQUOTE
            · obtain ⟨l3, e3⟩ := String_total _ hq
              obtain ⟨s3, c3⟩ := String_progress _ l3 hq e3
              obtain ⟨l1, e1, i1⟩ := ih _ (hS l l3 h hend2 hq e3) (by rw [s3, hsrc]; omega)
              exact ⟨l1, by rw [scan_quote n l hend2 hq, e3, Option.some_bind, e1], i1⟩
            · exact ⟨_, scan_unknown n l hend2 (by simpa using hop) (by simpa using hd)
                (by simpa using ha) hq, hU l h hend2⟩

/-- The loop of `ScanTokens` is left in a state of `Final` only. -/
theorem ScanTokensLoop_final (fuel : Nat) : ∀ l l1 : Lexer,
    Lexer.ScanTokensLoop fuel l = some l1 → Final l1 := by
  induction fuel with
  | zero =>
    intro l l1 h
    simp [Lexer.ScanTokensLoop] at h
  | succ n ih =>
    intro l l1 h
    by_cases hend : l.IsAtEnd = true
    · rw [scan_end n l hend] at h
      have := Option.some.inj h
      subst this
      exact Or.inl hend
    · have hend2 : l.IsAtEnd = false := by simpa using hend
      by_cases hop : operators.contains l.afterTrim.Current = true
      · rw [scan_operator n l hend2 hop] at h
        exact ih _ _ h
      · by_cases hd : isdigit l.afterTrim.Current = true
        · rw [scan_digit n l hend2 hd] at h
          exact ih _ _ h
        · by_cases ha : isalpha l.afterTrim.Current = true
          · rw [scan_alpha n l hend2 ha] at h
            exact ih _ _ h
          · by_cases hq : l.afterTrim.Current = DQUOTE
            · rw [scan_quote n l hend2 hq] at h
              cases hs : l.afterTrim.String with
              | none => rw [hs] at h; simp at h
              | some l3 =>
                rw [hs, Option.some_bind] at h
                exact ih _ _ h
            · rw [scan_unknown n l hend2 (by simpa using hop) (by simpa using hd)
                (by simpa using ha) hq] at h
              have := Option.some.inj h
              subst this
              right
              have hcur : l.afterTrim.afterUnknown.Current = l.afterTrim.Current := rfl
              refine ⟨rfl, ?_, ?_, ?_, ?_, ?_, ?_⟩
              · rw [hcur]
                exact runLen_stop isspace isspace_NUL l.m_Source l.m_Cursor
              · rw [hcur]; simpa using hop
              · rw [hcur]; simpa using hd
              · rw [hcur]; simpa using ha
              · rw [hcur]; exact hq
              · simp [Lexer.afterUnknown]
                rfl

/-! ## The line counter -/

/-- C14: after the scan of `s` the line counter is one plus the number of newlines of `s`
before the cursor: it moves by one for each newline the cursor has passed, and by
nothing else. -/
theorem C14_line_counter (s : List Char) :
    ∃ l, (Lexer.ofSource s).ScanTokens = some l ∧
      l.m_Source = s ∧ l.m_Cursor ≤ s.length ∧
      l.m_Line = 1 + (s.take l.m_Cursor).count NEWLINE := by
  obtain ⟨l, hl, hinv⟩ := ScanTokens_spec s
  exact ⟨l, hl, hinv.1, hinv.2.2.1, hinv.2.2.2.1⟩

/-! ## Termination -/

theorem ScanTokens_total (l : Lexer) : ∃ l1, l.ScanTokens = some l1 := by
  obtain ⟨l1, h1, _⟩ := scan_induction (fun _ => True) (fun _ _ _ _ => trivial)
    (fun _ _ _ _ => trivial) (fun _ _ _ _ => trivial) (fun _ _ _ _ _ _ => trivial)
    (fun _ _ _ => trivial) (l.m_Source.length - l.m_Cursor + 1) l trivial (Nat.lt_succ_self _)
  exact ⟨l1, h1⟩

/-- One iteration of the loop of `ScanTokens` away from the end of the source either
returns or goes on from a state whose cursor is strictly further. -/
theorem scan_iteration (n : Nat) (l : Lexer) (hend : l.IsAtEnd = false) :
    Lexer.ScanTokensLoop (n + 1) l = some l.afterTrim.afterUnknown ∨
    ∃ l1, l.m_Cursor < l1.m_Cursor ∧ l1.m_Source = l.m_Source ∧
      Lexer.ScanTokensLoop (n + 1) l = Lexer.ScanTokensLoop n l1 := by
  obtain ⟨hsrc, hc⟩ := afterTrim_cursor l
  by_cases hop : operators.contains l.afterTrim.Current = true
  · obtain ⟨s1, c1⟩ := Operator_source _ hop
    exact Or.inr ⟨l.afterTrim.Operator, by rw [c1]; omega, by rw [s1, hsrc],
      scan_operator n l hend hop⟩
  · by_cases hd : isdigit l.afterTrim.Current = true
    · have cr := afterRun_progress isdigit isdigit_NUL _ hd
      exact Or.inr ⟨l.afterTrim.afterRun isdigit, by omega, rfl, scan_digit n l hend hd⟩
    · by_cases ha : isalpha l.afterTrim.Current = true
      · have cr := afterRun_progress isalnum isalnum_NUL _ (isalpha_facts _ ha).2.2.2.2.1
        exact Or.inr ⟨l.afterTrim.afterRun isalnum, by omega, rfl, scan_alpha n l hend ha⟩
      · by_cases hq : l.afterTrim.Current = DQUOTE
        · obtain ⟨l3, e3⟩ := String_total _ hq
          obtain ⟨s3, c3⟩ := String_progress _ l3 hq e3
          exact Or.inr ⟨l3, by omega, by rw [s3, hsrc],
            by rw [scan_quote n l hend hq, e3, Option.some_bind]⟩
        · exact Or.inl (scan_unknown n l hend (by simpa using hop) (by simpa using hd)
            (by simpa using ha) hq)

/-- `String` returns from every state, also when it is not called on a double quote. -/
theorem String_total_any (l : Lexer) : ∃ l1, l.String = some l1 := by
  obtain ⟨c3, ln, e3, _⟩ := StringLoop_frame
    (l.Advance.2.m_Source.length - l.Advance.2.m_Cursor + 1)
    { l.Advance.2 with m_TokenStart := l.Advance.2.m_TokenStart + 1 } (Nat.lt_succ_self _)
  unfold Lexer.String
  simp only []
  rw [e3]
  simp only []
  split
  · exact ⟨_, rfl⟩
  · exact ⟨_, rfl⟩

/-- C17: from every state of the lexer, whatever the bytes of the source, `ScanTokens`
returns, and so do `Trim`, `Number`, `Identifier` and `String`, none moving the cursor
back or past the end of the source (for `String`: called on a double quote, as
`ScanTokens` calls it, where it moves the cursor strictly forward); an iteration of the
loop of `ScanTokens` either returns or moves the cursor strictly forward. -/
theorem C17_terminates (l : Lexer) :
    (∃ l1, l.ScanTokens = some l1) ∧
    (∃ l1, l.Trim = some l1 ∧ l.m_Cursor ≤ l1.m_Cursor ∧
      (l.m_Cursor ≤ l.m_Source.length → l1.m_Cursor ≤ l.m_Source.length)) ∧
    (∃ l1, l.Number = some l1 ∧ l.m_Cursor ≤ l1.m_Cursor ∧
      (l.m_Cursor ≤ l.m_Source.length → l1.m_Cursor ≤ l.m_Source.length)) ∧
    (∃ l1, l.Identifier = some l1 ∧ l.m_Cursor ≤ l1.m_Cursor ∧
      (l.m_Cursor ≤ l.m_Source.length → l1.m_Cursor ≤ l.m_Source.length)) ∧
    (∃ l1, l.String = some l1) ∧
    (l.Current = DQUOTE → ∃ l1, l.String = some l1 ∧ l.m_Cursor < l1.m_Cursor ∧
      l1.m_Cursor ≤ l.m_Source.length) ∧
    (∀ n, l.IsAtEnd = false →
      Lexer.ScanTokensLoop (n + 1) l = some l.afterTrim.afterUnknown ∨
      ∃ l1, l.m_Cursor < l1.m_Cursor ∧ l1.m_Source = l.m_Source ∧
        Lexer.ScanTokensLoop (n + 1) l = Lexer.ScanTokensLoop n l1) := by
  refine ⟨ScanTokens_total l, ⟨_, Trim_eq l, Nat.le_add_right _ _, runLen_le _ _ _⟩,
    ⟨_, Number_eq l, Nat.le_add_right _ _, runLen_le _ _ _⟩,
    ⟨_, Identifier_eq l, Nat.le_add_right _ _, runLen_le _ _ _⟩, String_total_any l, ?_,
    fun n h => scan_iteration n l h⟩
  intro hq
  obtain ⟨c3, ln, h1, h2, _, hc⟩ := String_cases l hq
  rcases hc with hc | ⟨h3, _, hc⟩
  · exact ⟨_, hc, by simp only []; omega, h2⟩
  · exact ⟨_, hc, by simp only []; omega, by simp only []; omega⟩

/-! ## The bounds of the cursor -/

theorem Bounds_afterTrim (l : Lexer) (h : Bounds l) : Bounds l.afterTrim :=
  ⟨Nat.le_refl _, runLen_le isspace _ _ h.2⟩

theorem Bounds_afterRun (p : Char → Bool) (l : Lexer) (h : Bounds l) : Bounds (l.afterRun p) :=
  ⟨Nat.le_trans h.1 (Nat.le_add_right _ _), runLen_le p _ _ h.2⟩

theorem Bounds_Operator (l : Lexer) (h : Bounds l) : Bounds l.Operator := by
  have ha : Bounds l.Advance.2 := by
    rw [Advance_snd]
    split
    · rename_i hc
      exact ⟨Nat.le_succ_of_le h.1, hc⟩
    · exact h
  unfold Lexer.Operator
  simp only []
  split
  · exact ha
  · split
    · exact ha
    · split
      · exact ha
      · split
        · exact ha
        · exact ha

theorem Bounds_String (l l1 : Lexer) (h : Bounds l) (hq : l.Current = DQUOTE)
    (hs : l.String = some l1) : Bounds l1 := by
  obtain ⟨c3, ln, h1, h2, _, hc⟩ := String_cases l hq
  have hts := h.1
  rcases hc with hc | ⟨h3, _, hc⟩
  · rw [hc] at hs
    have := Option.some.inj hs
    subst this
    exact ⟨by simp only []; omega, h2⟩
  · rw [hc] at hs
    have := Option.some.inj hs
    subst this
    exact ⟨by simp only []; omega, h3⟩

/-- C13: `m_TokenStart ≤ m_Cursor ≤ m_Source.size()` holds of a fresh lexer; `ScanTokens`
returns from every state where it holds in a state where it holds; and so do `Trim`,
`Operator`, `Number`, `Identifier` and, called on a double quote as `ScanTokens` calls
it, `String`. Where it holds `Current` reads the source at an index that is at most its
length. -/
theorem C13_cursor_bounds :
    (∀ s, Bounds (Lexer.ofSource s)) ∧
    (∀ l, Bounds l → ∃ l1, l.ScanTokens = some l1 ∧ Bounds l1) ∧
    (∀ l, Bounds l → ∃ l1, l.Trim = some l1 ∧ Bounds l1) ∧
    (∀ l, Bounds l → Bounds l.Operator) ∧
    (∀ l, Bounds l → ∃ l1, l.Number = some l1 ∧ Bounds l1) ∧
    (∀ l, Bounds l → ∃ l1, l.Identifier = some l1 ∧ Bounds l1) ∧
    (∀ l, Bounds l → l.Current = DQUOTE → ∃ l1, l.String = some l1 ∧ Bounds l1) ∧
    (∀ l, Bounds l → l.m_Cursor ≤ l.m_Source.length ∧
      l.Current = l.m_Source.getD l.m_Cursor NUL) := by
  refine ⟨fun s => ⟨Nat.le_refl _, Nat.zero_le _⟩, ?_, ?_, Bounds_Operator, ?_, ?_, ?_,
    fun l h => ⟨h.2, rfl⟩⟩
  · intro l h
    exact scan_induction Bounds
      (fun l h _ _ => Bounds_Operator _ (Bounds_afterTrim l h))
      (fun l h _ _ => Bounds_afterRun _ _ (Bounds_afterTrim l h))
      (fun l h _ _ => Bounds_afterRun _ _ (Bounds_afterTrim l h))
      (fun l l1 h _ hq hs => Bounds_String _ l1 (Bounds_afterTrim l h) hq hs)
      (fun l h _ => Bounds_afterTrim l h)
      _ l h (Nat.lt_succ_self _)
  · intro l h
    exact ⟨_, Trim_eq l, Nat.le_trans h.1 (Nat.le_add_right _ _), runLen_le isspace _ _ h.2⟩
  · intro l h
    exact ⟨_, Number_eq l, Bounds_afterRun isdigit l h⟩
  · intro l h
    exact ⟨_, Identifier_eq l, Bounds_afterRun isalnum l h⟩
  · intro l h hq
    obtain ⟨l1, h1⟩ := String_total l hq
    exact ⟨l1, h1, Bounds_String l l1 h hq h1⟩

/-! ## A run of operators -/

/-- Where the cursor is on a character that is not whitespace, `Trim` changes nothing. -/
theorem afterTrim_of_not_space (l : Lexer) (h : isspace l.Current = false) :
    l.afterTrim = { l with m_TokenStart := l.m_Cursor } := by
  unfold Lexer.afterTrim
  rw [runLen_neg isspace _ _ (by simpa [Lexer.Current] using h),
    runNewlines_neg _ _ (by simpa [Lexer.Current] using h)]
  rfl

/-- The iteration of `ScanTokens` on an operator character. -/
theorem scan_operator_step (n : Nat) (l : Lexer) (hop : operators.contains l.Current = true) :
    ∃ k, ((l.Current = '+' ∧ k = TokenType.Add) ∨ (l.Current = '-' ∧ k = TokenType.Sub) ∨
          (l.Current = '*' ∧ k = TokenType.Mul) ∨ (l.Current = '/' ∧ k = TokenType.Div)) ∧
      Lexer.ScanTokensLoop (n + 1) l =
        Lexer.ScanTokensLoop n
          { l with
            m_Cursor := l.m_Cursor + 1
            m_TokenStart := l.m_Cursor
            m_Tokens := l.m_Tokens ++
              [⟨(l.m_Source.drop l.m_Cursor).take 1, l.m_Line, l.m_Cursor, k⟩] } := by
  have hm : l.Current ∈ operators := by simpa using hop
  have hsp : isspace l.Current = false := (operators_facts _ hm).1
  have hat := afterTrim_of_not_space l hsp
  have hcur : l.afterTrim.Current = l.Current := by rw [hat]; rfl
  have hop2 : operators.contains l.afterTrim.Current = true := by rw [hcur]; exact hop
  obtain ⟨hlt, k, hk, he⟩ := Operator_eq _ hop2
  have hend : l.IsAtEnd = false := by
    have : l.m_Cursor < l.m_Source.length := by rw [hat] at hlt; exact hlt
    simp [Lexer.IsAtEnd, this]
  refine ⟨k, by rw [hcur] at hk; exact hk, ?_⟩
  rw [scan_operator n l hend hop2, he, hat]
  simp [Lexer.MakeToken, Lexer.LastLexeme]

theorem operators_run (s : List Char) : ∀ (pre : List Char) (l : Lexer) (fuel : Nat),
    (∀ x ∈ s, operators.contains x = true) → l.m_Source = pre ++ s →
    l.m_Cursor = pre.length → l.m_Line = 1 → s.length < fuel →
    ∃ l1 ts, Lexer.ScanTokensLoop fuel l = some l1 ∧ l1.out = l.out ∧
      l1.m_Tokens = l.m_Tokens ++ ts ∧ ts.length = s.length ∧
      ∀ i c, s[i]? = some c → ∃ t : Token, ts[i]? = some t ∧ IsOpToken c (pre.length + i) t := by
  induction s with
  | nil =>
    intro pre l fuel _ hs hc _ hf
    obtain ⟨n, rfl⟩ : ∃ n, fuel = n + 1 := ⟨fuel - 1, by omega⟩
    refine ⟨l, [], scan_end n l (by simp [Lexer.IsAtEnd, hs, hc]), rfl, by simp, rfl, ?_⟩
    intro i c hi
    simp at hi
  | cons x s1 ih =>
    intro pre l fuel hall hs hc hline hf
    obtain ⟨n, rfl⟩ : ∃ n, fuel = n + 1 := ⟨fuel - 1, by omega⟩
    have hcur : l.Current = x := by
      rw [Lexer.Current, getD_of _ _ pre (x :: s1) hs hc]
      rfl
    have hx : operators.contains l.Current = true := by rw [hcur]; exact hall x (by simp)
    obtain ⟨k, hk, he⟩ := scan_operator_step n l hx
    have hlex : (l.m_Source.drop l.m_Cursor).take 1 = [x] := by
      rw [hs, hc, List.drop_left]
      rfl
    obtain ⟨l1, ts, e1, o1, t1, len1, idx1⟩ := ih (pre ++ [x])
      { l with
        m_Cursor := l.m_Cursor + 1
        m_TokenStart := l.m_Cursor
        m_Tokens := l.m_Tokens ++
          [⟨(l.m_Source.drop l.m_Cursor).take 1, l.m_Line, l.m_Cursor, k⟩] } n
      (fun y hy => hall y (List.mem_cons_of_mem x hy))
      (show l.m_Source = (pre ++ [x]) ++ s1 by rw [hs]; simp)
      (show l.m_Cursor + 1 = (pre ++ [x]).length by rw [hc]; simp)
      hline (by simp only [List.length_cons] at hf; omega)
    refine ⟨l1, ⟨(l.m_Source.drop l.m_Cursor).take 1, l.m_Line, l.m_Cursor, k⟩ :: ts,
      by rw [he, e1], o1, ?_, by simp [len1], ?_⟩
    · rw [t1]
      simp
    · intro i c hi
      cases i with
      | zero =>
        have hcx : x = c := by simpa using hi
        subst hcx
        rw [hcur] at hk
        exact ⟨⟨(l.m_Source.drop l.m_Cursor).take 1, l.m_Line, l.m_Cursor, k⟩,
          List.getElem?_cons_zero, hlex, by simpa using hc, hline, hk⟩
      | succ j =>
        obtain ⟨t, ht, hop⟩ := idx1 j c (by simpa using hi)
        refine ⟨t, by simpa using ht, ?_⟩
        have : (pre ++ [x]).length + j = pre.length + (j + 1) := by simp; omega
        rw [this] at hop
        exact hop

/-- C11: a source made of the characters `+ - * /` only is scanned without diagnostic
into as many tokens as it has characters; the token of index `i` has the character of
index `i` as its lexeme, position `i`, line 1 and the kind Add, Sub, Mul or Div of that
character. -/
theorem C11_operator_run (s : List Char) (hs : ∀ x ∈ s, x ∈ operators) :
    ∃ l, (Lexer.ofSource s).ScanTokens = some l ∧ l.out = [] ∧
      l.GetTokens.length = s.length ∧
      ∀ i c, s[i]? = some c → ∃ t : Token, l.GetTokens[i]? = some t ∧
        t.Lexeme = [c] ∧ t.Position = i ∧ t.Line = 1 ∧
        ((c = '+' ∧ t.Type_ = TokenType.Add) ∨ (c = '-' ∧ t.Type_ = TokenType.Sub) ∨
         (c = '*' ∧ t.Type_ = TokenType.Mul) ∨ (c = '/' ∧ t.Type_ = TokenType.Div)) := by
  obtain ⟨l1, ts, e1, o1, t1, len1, idx1⟩ := operators_run s [] (Lexer.ofSource s)
    (s.length + 1) (fun x hx => by simpa using hs x hx) rfl rfl rfl (Nat.lt_succ_self _)
  have ht : l1.GetTokens = ts := by
    rw [Lexer.GetTokens, t1]
    rfl
  refine ⟨l1, e1, o1, by rw [ht, len1], ?_⟩
  intro i c hi
  obtain ⟨t, h1, h2⟩ := idx1 i c hi
  refine ⟨t, by rw [ht]; exact h1, h2.1, ?_, h2.2.2.1, h2.2.2.2⟩
  simpa using h2.2.1

/-- C11 at the source `+-*/`. -/
theorem C11_operator_run_witness :
    ∃ l, (Lexer.ofSource ['+', '-', '*', '/']).ScanTokens = some l ∧ l.out = [] ∧
      l.GetTokens.length = ['+', '-', '*', '/'].length ∧
      ∀ i c, ['+', '-', '*', '/'][i]? = some c → ∃ t : Token, l.GetTokens[i]? = some t ∧
        t.Lexeme = [c] ∧ t.Position = i ∧ t.Line = 1 ∧
        ((c = '+' ∧ t.Type_ = TokenType.Add) ∨ (c = '-' ∧ t.Type_ = TokenType.Sub) ∨
         (c = '*' ∧ t.Type_ = TokenType.Mul) ∨ (c = '/' ∧ t.Type_ = TokenType.Div)) :=
  C11_operator_run ['+', '-', '*', '/'] (by decide)

/-! ## The order of the tokens -/

theorem OrdUpTo_mono (c c1 : Nat) (ts : List Token) (h : OrdUpTo c ts) (hc : c ≤ c1) :
    OrdUpTo c1 ts :=
  ⟨h.1, fun a ha => ⟨Nat.lt_of_lt_of_le (h.2 a ha).1 hc, Nat.le_trans (h.2 a ha).2 hc⟩⟩

theorem OrdUpTo_push (c c1 : Nat) (ts : List Token) (t : Token) (h : OrdUpTo c ts)
    (hct : c ≤ t.Position) (h1 : t.Position < c1) (h2 : t.Position + t.Lexeme.length ≤ c1) :
    OrdUpTo c1 (ts ++ [t]) := by
  refine ⟨?_, ?_⟩
  · rw [List.pairwise_append]
    refine ⟨h.1, List.pairwise_singleton _ _, ?_⟩
    intro a ha b hb
    have hb2 : b = t := by simpa using hb
    subst hb2
    exact ⟨Nat.lt_of_lt_of_le (h.2 a ha).1 hct, Nat.le_trans (h.2 a ha).2 hct⟩
  · intro a ha
    rcases List.mem_append.mp ha with ha | ha
    · exact ⟨by have := (h.2 a ha).1; omega, by have := (h.2 a ha).2; omega⟩
    · have ha2 : a = t := by simpa using ha
      subst ha2
      exact ⟨h1, h2⟩

theorem LastLexeme_length_le (l : Lexer) : l.LastLexeme.length ≤ l.m_Cursor - l.m_TokenStart := by
  unfold Lexer.LastLexeme
  exact List.length_take_le _ _

/-- Making a token from a state whose token start is at or after the bound of the tokens
made so far, then putting the cursor at `c1`, keeps the tokens ordered. -/
theorem OrdUpTo_MakeToken (c c1 : Nat) (l : Lexer) (k : TokenType) (h : OrdUpTo c l.m_Tokens)
    (hct : c ≤ l.m_TokenStart) (h1 : l.m_TokenStart < c1) (h2 : l.m_Cursor ≤ c1)
    (h3 : l.m_TokenStart ≤ l.m_Cursor) :
    OrdUpTo c1 (l.MakeToken k).m_Tokens := by
  have hl := LastLexeme_length_le l
  exact OrdUpTo_push c c1 _ _ h hct h1 (by show l.m_TokenStart + l.LastLexeme.length ≤ c1; omega)

theorem Ordered_afterRun (p : Char → Bool) (hp : p NUL = false) (l : Lexer) (h : Ordered l)
    (hc : p l.afterTrim.Current = true) : Ordered (l.afterTrim.afterRun p) := by
  have hr := runLen_pos p hp _ _ hc
  have hle : l.m_Cursor ≤ l.afterTrim.m_Cursor := Nat.le_add_right _ _
  have hts : l.afterTrim.m_TokenStart = l.afterTrim.m_Cursor := rfl
  exact OrdUpTo_MakeToken l.m_Cursor
    (l.afterTrim.m_Cursor + runLen p l.afterTrim.m_Source l.afterTrim.m_Cursor)
    { l.afterTrim with
      m_Cursor := l.afterTrim.m_Cursor + runLen p l.afterTrim.m_Source l.afterTrim.m_Cursor }
    TokenType.Value h
    (by show l.m_Cursor ≤ l.afterTrim.m_TokenStart
        omega)
    (by show l.afterTrim.m_TokenStart <
          l.afterTrim.m_Cursor + runLen p l.afterTrim.m_Source l.afterTrim.m_Cursor
        omega)
    (Nat.le_refl _)
    (by show l.afterTrim.m_TokenStart ≤
          l.afterTrim.m_Cursor + runLen p l.afterTrim.m_Source l.afterTrim.m_Cursor
        omega)

theorem Ordered_Operator (l : Lexer) (h : Ordered l)
    (hop : operators.contains l.afterTrim.Current = true) : Ordered l.afterTrim.Operator := by
  obtain ⟨_, k, _, hk⟩ := Operator_eq _ hop
  have hle : l.m_Cursor ≤ l.afterTrim.m_Cursor := Nat.le_add_right _ _
  have hts : l.afterTrim.m_TokenStart = l.afterTrim.m_Cursor := rfl
  rw [hk]
  exact OrdUpTo_MakeToken l.m_Cursor (l.afterTrim.m_Cursor + 1)
    { l.afterTrim with m_Cursor := l.afterTrim.m_Cursor + 1 } k h
    (by show l.m_Cursor ≤ l.afterTrim.m_TokenStart
        omega)
    (by show l.afterTrim.m_TokenStart < l.afterTrim.m_Cursor + 1
        omega)
    (Nat.le_refl _)
    (by show l.afterTrim.m_TokenStart ≤ l.afterTrim.m_Cursor + 1
        omega)

theorem Ordered_String (l l1 : Lexer) (h : Ordered l) (hq : l.afterTrim.Current = DQUOTE)
    (hs : l.afterTrim.String = some l1) : Ordered l1 := by
  obtain ⟨c3, ln, h1, h2, _, hc⟩ := String_cases _ hq
  have hle : l.m_Cursor ≤ l.afterTrim.m_Cursor := Nat.le_add_right _ _
  have hts : l.afterTrim.m_TokenStart = l.afterTrim.m_Cursor := rfl
  rcases hc with hc | ⟨h3, _, hc⟩
  · rw [hc] at hs
    have := Option.some.inj hs
    subst this
    exact OrdUpTo_mono _ _ _ h (by show l.m_Cursor ≤ c3; omega)
  · rw [hc] at hs
    have := Option.some.inj hs
    subst this
    apply OrdUpTo_push l.m_Cursor _ _ _ h
    · show l.m_Cursor ≤ l.afterTrim.m_TokenStart + 1
      omega
    · show l.afterTrim.m_TokenStart + 1 < c3 + 1
      omega
    · have := List.length_take_le (c3 - (l.afterTrim.m_TokenStart + 1))
        (l.afterTrim.m_Source.drop (l.afterTrim.m_TokenStart + 1))
      show l.afterTrim.m_TokenStart + 1 + (List.take (c3 - (l.afterTrim.m_TokenStart + 1))
        (l.afterTrim.m_Source.drop (l.afterTrim.m_TokenStart + 1))).length ≤ c3 + 1
      omega

theorem pairwise_getElem? (R : Token → Token → Prop) (ts : List Token) (h : ts.Pairwise R) :
    ∀ (i j : Nat) (a b : Token), i < j → ts[i]? = some a → ts[j]? = some b → R a b := by
  induction ts with
  | nil =>
    intro i j a b _ ha
    simp at ha
  | cons x t ih =>
    intro i j a b hij ha hb
    obtain ⟨j1, rfl⟩ : ∃ j1, j = j1 + 1 := ⟨j - 1, by omega⟩
    have hb2 : t[j1]? = some b := by simpa using hb
    cases i with
    | zero =>
      have hax : x = a := by simpa using ha
      subst hax
      exact List.rel_of_pairwise_cons h (List.getElem?_mem hb2)
    | succ i1 =>
      exact ih (List.Pairwise.of_cons h) i1 j1 a b (by omega) (by simpa using ha) hb2

/-- C12: in the token sequence of a scan, diagnostics or not, every token starts strictly
before the next one and ends at or before the start of the next one. -/
theorem C12_tokens_in_source_order (s : List Char) :
    ∃ l, (Lexer.ofSource s).ScanTokens = some l ∧
      ∀ (i : Nat) (a b : Token), l.GetTokens[i]? = some a → l.GetTokens[i + 1]? = some b →
        a.Position < b.Position ∧ a.Position + a.Lexeme.length ≤ b.Position := by
  obtain ⟨l, hl, hord⟩ := scan_induction Ordered
    (fun l h _ hop => Ordered_Operator l h hop)
    (fun l h _ hd => Ordered_afterRun isdigit isdigit_NUL l h hd)
    (fun l h _ ha => Ordered_afterRun isalnum isalnum_NUL l h (isalpha_facts _ ha).2.2.2.2.1)
    (fun l l1 h _ hq hs => Ordered_String l l1 h hq hs)
    (fun l h _ => OrdUpTo_mono _ _ _ h (Nat.le_add_right _ _))
    (s.length + 1) (Lexer.ofSource s)
    ⟨List.Pairwise.nil, fun a ha => by simp [Lexer.ofSource] at ha⟩ (Nat.lt_succ_self _)
  exact ⟨l, hl, fun i a b ha hb => pairwise_getElem? Before _ hord.1 i (i + 1) a b
    (Nat.lt_succ_self _) ha hb⟩

/-! ## The kinds of the tokens -/

theorem take_one_drop (s : List Char) (c : Nat) (hc : c < s.length) :
    (s.drop c).take 1 = [s.getD c NUL] := by
  rw [List.drop_eq_getElem_cons hc, List.getD_eq_getElem _ _ hc]
  rfl

theorem KindOK_push (ts : List Token) (t : Token) (h : ∀ a ∈ ts, KindOK a) (ht : KindOK t) :
    ∀ a ∈ ts ++ [t], KindOK a := by
  intro a ha
  rcases List.mem_append.mp ha with ha | ha
  · exact h a ha
  · have : a = t := by simpa using ha
    rw [this]
    exact ht

theorem KindOK_Operator (l : Lexer) (h : ∀ a ∈ l.m_Tokens, KindOK a)
    (hts : l.m_TokenStart = l.m_Cursor) (hop : operators.contains l.Current = true) :
    ∀ a ∈ l.Operator.m_Tokens, KindOK a := by
  obtain ⟨hlt, k, hk, he⟩ := Operator_eq l hop
  rw [he]
  have hlex : Lexer.LastLexeme { l with m_Cursor := l.m_Cursor + 1 } = [l.Current] := by
    show (l.m_Source.drop l.m_TokenStart).take (l.m_Cursor + 1 - l.m_TokenStart) = _
    rw [hts, Nat.add_sub_cancel_left, take_one_drop _ _ hlt]
    rfl
  apply KindOK_push _ _ h
  show KindOK ⟨Lexer.LastLexeme { l with m_Cursor := l.m_Cursor + 1 }, _, _, k⟩
  rw [hlex]
  rcases hk with ⟨h1, h2⟩ | ⟨h1, h2⟩ | ⟨h1, h2⟩ | ⟨h1, h2⟩
  · exact Or.inr (Or.inl ⟨h2, by rw [h1]⟩)
  · exact Or.inr (Or.inr (Or.inl ⟨h2, by rw [h1]⟩))
  · exact Or.inr (Or.inr (Or.inr (Or.inl ⟨h2, by rw [h1]⟩)))
  · exact Or.inr (Or.inr (Or.inr (Or.inr ⟨h2, by rw [h1]⟩)))

theorem String_tokens (l l1 : Lexer) (hq : l.Current = DQUOTE) (hs : l.String = some l1) :
    l1.m_Tokens = l.m_Tokens ∨
    ∃ t : Token, l1.m_Tokens = l.m_Tokens ++ [t] ∧ t.Type_ = TokenType.Value := by
  obtain ⟨c3, ln, _, _, _, hc⟩ := String_cases l hq
  rcases hc with hc | ⟨_, _, hc⟩
  · rw [hc] at hs
    have := Option.some.inj hs
    subst this
    exact Or.inl rfl
  · rw [hc] at hs
    have := Option.some.inj hs
    subst this
    exact Or.inr ⟨_, rfl, rfl⟩

/-- C16: no token of a scan has the kind Ident: every one has the kind Value or the kind
Add, Sub, Mul, Div with the lexeme `+`, `-`, `*`, `/` of that kind; and `Number`,
`Identifier` and `String` make tokens of kind Value only. -/
theorem C16_token_kinds :
    (∀ s, ∃ l, (Lexer.ofSource s).ScanTokens = some l ∧
      ∀ t ∈ l.GetTokens, t.Type_ ≠ TokenType.Ident ∧
        (t.Type_ = TokenType.Add ∨ t.Type_ = TokenType.Sub ∨ t.Type_ = TokenType.Mul ∨
          t.Type_ = TokenType.Div ∨ t.Type_ = TokenType.Value) ∧
        (t.Type_ = TokenType.Add → t.Lexeme = ['+']) ∧
        (t.Type_ = TokenType.Sub → t.Lexeme = ['-']) ∧
        (t.Type_ = TokenType.Mul → t.Lexeme = ['*']) ∧
        (t.Type_ = TokenType.Div → t.Lexeme = ['/'])) ∧
    (∀ l l1 : Lexer, l.Number = some l1 →
      ∃ t : Token, l1.m_Tokens = l.m_Tokens ++ [t] ∧ t.Type_ = TokenType.Value) ∧
    (∀ l l1 : Lexer, l.Identifier = some l1 →
      ∃ t : Token, l1.m_Tokens = l.m_Tokens ++ [t] ∧ t.Type_ = TokenType.Value) ∧
    (∀ l l1 : Lexer, l.Current = DQUOTE → l.String = some l1 →
      l1.m_Tokens = l.m_Tokens ∨
      ∃ t : Token, l1.m_Tokens = l.m_Tokens ++ [t] ∧ t.Type_ = TokenType.Value) := by
  refine ⟨?_, ?_, ?_, String_tokens⟩
  · intro s
    obtain ⟨l, hl, hk⟩ := scan_induction (fun l => ∀ a ∈ l.m_Tokens, KindOK a)
      (fun l h _ hop => KindOK_Operator l.afterTrim h rfl hop)
      (fun l h _ _ => KindOK_push _ _ h (Or.inl rfl))
      (fun l h _ _ => KindOK_push _ _ h (Or.inl rfl))
      (fun l l1 h _ hq hs => by
        rcases String_tokens _ l1 hq hs with h1 | ⟨t, h1, h2⟩
        · rw [h1]; exact h
        · rw [h1]; exact KindOK_push _ _ h (Or.inl h2))
      (fun l h _ => h)
      (s.length + 1) (Lexer.ofSource s) (fun a ha => by simp [Lexer.ofSource] at ha)
      (Nat.lt_succ_self _)
    refine ⟨l, hl, fun t ht => ?_⟩
    rcases hk t ht with h | ⟨h, hx⟩ | ⟨h, hx⟩ | ⟨h, hx⟩ | ⟨h, hx⟩
    · simp [h]
    · simp [h, hx]
    · simp [h, hx]
    · simp [h, hx]
    · simp [h, hx]
  · intro l l1 h
    rw [Number_eq] at h
    have := Option.some.inj h
    subst this
    exact ⟨_, rfl, rfl⟩
  · intro l l1 h
    rw [Identifier_eq] at h
    have := Option.some.inj h
    subst this
    exact ⟨_, rfl, rfl⟩

/-! ## Scanning twice -/

/-- A scan that starts in a state where the loop of `ScanTokens` was left returns that
state, but for the diagnostic of the last branch, written once more. -/
theorem rescan (l1 : Lexer) (h : Final l1) :
    ∃ l2, l1.ScanTokens = some l2 ∧
      (l2 = l1 ∨
       (l1.out.getLast? =
          some (SCP_Error (unknownSymbol l1.Current) l1.m_Filename l1.m_Line l1.m_Cursor) ∧
        l2 = { l1 with
          out := l1.out ++
            [SCP_Error (unknownSymbol l1.Current) l1.m_Filename l1.m_Line l1.m_Cursor] })) := by
  unfold Lexer.ScanTokens
  by_cases hend : l1.IsAtEnd = true
  · exact ⟨l1, scan_end _ l1 hend, Or.inl rfl⟩
  · have hend2 : l1.IsAtEnd = false := by simpa using hend
    rcases h with h | ⟨hts, hsp, hop, hd, ha, hq, hlast⟩
    · exact absurd h hend
    · have hat : l1.afterTrim = l1 := by
        rw [afterTrim_of_not_space l1 hsp]
        cases l1
        simp only [] at hts
        subst hts
        rfl
      refine ⟨_, scan_unknown _ l1 hend2 (by rw [hat]; exact hop) (by rw [hat]; exact hd)
        (by rw [hat]; exact ha) (by rw [hat]; exact hq), Or.inr ⟨hlast, ?_⟩⟩
      rw [hat]
      rfl

/-- C18: a second `ScanTokens` on the lexer that scanned `s` returns, and leaves the
source, the cursor, the token start, the line and the tokens as the first scan left
them: it makes no token, and writes nothing or, once more, the `unknown symbol`
diagnostic that the first scan wrote last. -/
theorem C18_second_scan (s : List Char) :
    ∃ l1 l2, (Lexer.ofSource s).ScanTokens = some l1 ∧ l1.ScanTokens = some l2 ∧
      l2.m_Source = l1.m_Source ∧ l2.m_Cursor = l1.m_Cursor ∧
      l2.m_TokenStart = l1.m_TokenStart ∧ l2.m_Line = l1.m_Line ∧
      l2.m_Tokens = l1.m_Tokens ∧
      (l2.out = l1.out ∨
       ∃ d, l1.out.getLast? = some d ∧ l2.out = l1.out ++ [d] ∧
         d = SCP_Error (unknownSymbol l1.Current) l1.m_Filename l1.m_Line l1.m_Cursor) := by
  obtain ⟨l1, h1⟩ := ScanTokens_total (Lexer.ofSource s)
  obtain ⟨l2, h2, hc⟩ := rescan l1 (ScanTokensLoop_final _ _ _ h1)
  refine ⟨l1, l2, h1, h2, ?_⟩
  rcases hc with hc | ⟨hlast, hc⟩
  · subst hc
    exact ⟨rfl, rfl, rfl, rfl, rfl, Or.inl rfl⟩
  · subst hc
    exact ⟨rfl, rfl, rfl, rfl, rfl, Or.inr ⟨_, hlast, rfl, rfl⟩⟩

/-! ## A source that ends in whitespace -/

theorem takeWhile_getD (p : Char → Bool) (a : List Char) :
    ∀ k, k < (a.takeWhile p).length → p (a.getD k NUL) = true := by
  induction a with
  | nil => intro k hk; simp at hk
  | cons x t ih =>
    intro k hk
    by_cases hx : p x = true
    · rw [List.takeWhile_cons_of_pos hx] at hk
      cases k with
      | zero => simpa using hx
      | succ j =>
        have := ih j (by simpa using hk)
        simpa using this
    · rw [List.takeWhile_cons_of_neg hx] at hk
      simp at hk

/-- The last character of a non-empty run of the class `p` is of the class `p`. -/
theorem runLen_last (p : Char → Bool) (s : List Char) (c : Nat) (h : 0 < runLen p s c) :
    p (s.getD (c + runLen p s c - 1) NUL) = true := by
  have e : c + runLen p s c - 1 = c + (runLen p s c - 1) := by omega
  rw [e, getD_drop_add]
  exact takeWhile_getD p _ _ (by unfold runLen at h ⊢; omega)

theorem NoDiagYet_afterRun (p : Char → Bool) (hp : p NUL = false)
    (hsp : ∀ x, p x = true → isspace x = false) (s : List Char) (l : Lexer)
    (h : NoDiagYet s l) (hc : p l.afterTrim.Current = true) :
    NoDiagYet s (l.afterTrim.afterRun p) := by
  obtain ⟨h1, h2, _⟩ := h
  subst h1
  have hca : l.afterTrim.m_Cursor ≤ l.m_Source.length := runLen_le isspace _ _ h2
  have hr := runLen_pos p hp _ _ hc
  have hlast := runLen_last p l.afterTrim.m_Source l.afterTrim.m_Cursor (by omega)
  exact ⟨rfl, runLen_le p l.m_Source _ hca, fun _ => Or.inr (hsp _ hlast)⟩

theorem NoDiagYet_Operator (s : List Char) (l : Lexer) (h : NoDiagYet s l)
    (hop : operators.contains l.afterTrim.Current = true) :
    NoDiagYet s l.afterTrim.Operator := by
  obtain ⟨h1, _, _⟩ := h
  obtain ⟨hlt, k, _, hk⟩ := Operator_eq _ hop
  have hsrc : l.afterTrim.m_Source = s := h1
  have hm : l.afterTrim.Current ∈ operators := by simpa using hop
  rw [hk]
  refine ⟨h1, ?_, fun _ => Or.inr ?_⟩
  · show l.afterTrim.m_Cursor + 1 ≤ s.length
    rw [← hsrc]; exact hlt
  · show isspace (s.getD (l.afterTrim.m_Cursor + 1 - 1) NUL) = false
    rw [Nat.add_sub_cancel, ← hsrc]
    exact (operators_facts _ hm).1

theorem NoDiagYet_String (s : List Char) (l l1 : Lexer) (h : NoDiagYet s l)
    (hq : l.afterTrim.Current = DQUOTE) (hs : l.afterTrim.String = some l1) :
    NoDiagYet s l1 := by
  obtain ⟨h1, _, _⟩ := h
  have hsrc : l.afterTrim.m_Source = s := h1
  obtain ⟨c3, ln, _, h2, _, hc⟩ := String_cases _ hq
  rcases hc with hc | ⟨h3, h4, hc⟩
  · rw [hc] at hs
    have := Option.some.inj hs
    subst this
    refine ⟨h1, by rw [← hsrc]; exact h2, fun ho => ?_⟩
    simp at ho
  · rw [hc] at hs
    have := Option.some.inj hs
    subst this
    refine ⟨h1, by rw [← hsrc]; exact h3, fun _ => Or.inr ?_⟩
    show isspace (s.getD (c3 + 1 - 1) NUL) = false
    rw [Nat.add_sub_cancel, ← hsrc, h4]
    decide

/-- C19: the scan of a non-empty source whose last character is whitespace writes at
least one diagnostic. -/
theorem C19_trailing_whitespace (s : List Char) (h0 : s ≠ [])
    (hlast : ∀ x, s.getLast? = some x → isspace x = true) :
    ∃ l, (Lexer.ofSource s).ScanTokens = some l ∧ l.out ≠ [] := by
  obtain ⟨l, hl, hP⟩ := scan_induction (NoDiagYet s)
    (fun l h _ hop => NoDiagYet_Operator s l h hop)
    (fun l h _ hd => NoDiagYet_afterRun isdigit isdigit_NUL
      (fun x hx => (isdigit_facts x hx).1) s l h hd)
    (fun l h _ ha => NoDiagYet_afterRun isalnum isalnum_NUL isalnum_not_space s l h
      (isalpha_facts _ ha).2.2.2.2.1)
    (fun l l1 h _ hq hs => NoDiagYet_String s l l1 h hq hs)
    (fun l h _ => ⟨h.1, by
        show l.m_Cursor + runLen isspace l.m_Source l.m_Cursor ≤ s.length
        rw [h.1]; exact runLen_le isspace s _ h.2.1,
      fun ho => by simp [Lexer.afterUnknown] at ho⟩)
    (s.length + 1) (Lexer.ofSource s) ⟨rfl, Nat.zero_le _, fun _ => Or.inl rfl⟩
    (Nat.lt_succ_self _)
  refine ⟨l, hl, fun ho => ?_⟩
  have hfin := ScanTokensLoop_final _ _ _ hl
  obtain ⟨h1, h2, h3⟩ := hP
  have hpos : 0 < s.length := List.length_pos.mpr h0
  rcases hfin with hend | ⟨_, _, _, _, _, _, hl2⟩
  · have hge : s.length ≤ l.m_Cursor := by
      simpa [Lexer.IsAtEnd, h1] using hend
    have hcur : l.m_Cursor = s.length := Nat.le_antisymm h2 hge
    have hg : s.getLast? = some (s.getD (s.length - 1) NUL) := by
      rw [List.getLast?_eq_getElem?, List.getD_eq_getElem?_getD,
        List.getElem?_eq_getElem (by omega)]
      rfl
    have hsp := hlast _ hg
    rcases h3 ho with hz | hz
    · omega
    · rw [hcur, hsp] at hz
      exact absurd hz (by simp)
  · rw [ho] at hl2
    simp at hl2

/-- C19 at the source made of `1` and a newline. -/
theorem C19_trailing_whitespace_witness :
    ∃ l, (Lexer.ofSource ['1', NEWLINE]).ScanTokens = some l ∧ l.out ≠ [] :=
  C19_trailing_whitespace ['1', NEWLINE] (by decide) (by decide)

/-! ## Whitespace right after the opening quote -/

theorem head?_append_some (d : String) (xs ys : List String) (h : xs.head? = some d) :
    (xs ++ ys).head? = some d := by
  cases xs with
  | nil => simp at h
  | cons x t => simpa using h

theorem afterTrim_ge_two (s : List Char) (l : Lexer) (hsrc : l.m_Source = s)
    (hw : isspace (s.getD 1 NUL) = true) (hc : 1 ≤ l.m_Cursor) :
    2 ≤ l.afterTrim.m_Cursor := by
  show 2 ≤ l.m_Cursor + runLen isspace l.m_Source l.m_Cursor
  by_cases h1 : l.m_Cursor = 1
  · have := runLen_pos isspace isspace_NUL l.m_Source l.m_Cursor (by rw [hsrc, h1]; exact hw)
    omega
  · omega

theorem tokens_ge_two_push (ts : List Token) (t : Token) (h : ∀ a ∈ ts, 2 ≤ a.Position)
    (ht : 2 ≤ t.Position) : ∀ a ∈ ts ++ [t], 2 ≤ a.Position := by
  intro a ha
  rcases List.mem_append.mp ha with ha | ha
  · exact h a ha
  · have : a = t := by simpa using ha
    rw [this]
    exact ht

theorem AfterFirstDiag_step (s : List Char) (d : String) (hw : isspace (s.getD 1 NUL) = true) :
    (∀ l, AfterFirstDiag s d l → l.IsAtEnd = false →
      operators.contains l.afterTrim.Current = true → AfterFirstDiag s d l.afterTrim.Operator) ∧
    (∀ (p : Char → Bool) l, AfterFirstDiag s d l → AfterFirstDiag s d (l.afterTrim.afterRun p)) ∧
    (∀ l l1, AfterFirstDiag s d l → l.IsAtEnd = false → l.afterTrim.Current = DQUOTE →
      l.afterTrim.String = some l1 → AfterFirstDiag s d l1) ∧
    (∀ l, AfterFirstDiag s d l → l.IsAtEnd = false →
      AfterFirstDiag s d l.afterTrim.afterUnknown) := by
  refine ⟨?_, ?_, ?_, ?_⟩
  · intro l ⟨h1, h2, h3, h4⟩ _ hop
    have h5 := afterTrim_ge_two s l h1 hw h2
    obtain ⟨_, k, _, hk⟩ := Operator_eq _ hop
    rw [hk]
    exact ⟨h1, by show 1 ≤ l.afterTrim.m_Cursor + 1; omega,
      tokens_ge_two_push _ _ h3 h5, h4⟩
  · intro p l ⟨h1, h2, h3, h4⟩
    have h5 := afterTrim_ge_two s l h1 hw h2
    exact ⟨h1, by
        show 1 ≤ l.afterTrim.m_Cursor + runLen p l.afterTrim.m_Source l.afterTrim.m_Cursor
        omega,
      tokens_ge_two_push _ _ h3 h5, h4⟩
  · intro l l1 ⟨h1, h2, h3, h4⟩ _ hq hs
    have h5 := afterTrim_ge_two s l h1 hw h2
    obtain ⟨c3, ln, h6, _, _, hc⟩ := String_cases _ hq
    rcases hc with hc | ⟨_, _, hc⟩
    · rw [hc] at hs
      have := Option.some.inj hs
      subst this
      exact ⟨h1, by show 1 ≤ c3; omega, h3, head?_append_some d _ _ h4⟩
    · rw [hc] at hs
      have := Option.some.inj hs
      subst this
      exact ⟨h1, by show 1 ≤ c3 + 1; omega,
        tokens_ge_two_push _ _ h3 (by show 2 ≤ l.afterTrim.m_TokenStart + 1
                                      have : l.afterTrim.m_TokenStart = l.afterTrim.m_Cursor := rfl
                                      omega),
        h4⟩
  · intro l ⟨h1, h2, h3, h4⟩ _
    have h5 := afterTrim_ge_two s l h1 hw h2
    exact ⟨h1, by show 1 ≤ l.afterTrim.m_Cursor; omega, h3, head?_append_some d _ _ h4⟩

/-- C20: on a source that begins with a double quote and a whitespace character, the
first diagnostic of the scan is `unterminated string literal` at line 1, cursor 1, and
no token of the scan starts at position 1, whatever follows. -/
theorem C20_space_after_quote (w : Char) (r : List Char) (hw : isspace w = true) :
    ∃ l, (Lexer.ofSource ([DQUOTE, w] ++ r)).ScanTokens = some l ∧
      (∀ t ∈ l.GetTokens, t.Position ≠ 1) ∧
      l.out.head? = some "<script:1:1> Error: unterminated string literal\n" := by
  generalize hs : [DQUOTE, w] ++ r = s
  have hlen : s.length = r.length + 2 := by simp [← hs]
  have hs0 : s = DQUOTE :: w :: r := by simp [← hs]
  have hw1 : isspace (s.getD 1 NUL) = true := by
    rw [hs0]; exact hw
  have hat : (Lexer.ofSource s).afterTrim = Lexer.ofSource s := by
    apply afterTrim_ofSource
    intro y hy
    have : y = DQUOTE := by simpa [hs0] using hy.symm
    rw [this]
    decide
  have hcur : (Lexer.ofSource s).Current = DQUOTE := by
    simp [Lexer.Current, Lexer.ofSource, hs0]
  have hnsc : isStringChar w = false := by
    by_contra hc
    have := (isStringChar_facts w (by simpa using hc)).1
    rw [hw] at this
    exact absurd this (by simp)
  have hwq : w ≠ DQUOTE := by
    intro hc
    rw [hc] at hw
    exact absurd hw (by decide)
  have hloop : Lexer.StringLoop ((Lexer.ofSource s).m_Source.length -
      ((Lexer.ofSource s).m_Cursor + 1) + 1)
      { Lexer.ofSource s with
        m_Cursor := (Lexer.ofSource s).m_Cursor + 1
        m_TokenStart := (Lexer.ofSource s).m_TokenStart + 1 } =
      some ⟨s, "script", 1, 1, 0, 1, [], []⟩ :=
    StringLoop_stop _ _ (by show isStringChar (s.getD 1 NUL) = false
                            rw [hs0]; exact hnsc)
  have hstr : (Lexer.ofSource s).String =
      some ⟨s, "script", 1, 1, 0, 1, [], [SCP_Error unterminated "script" 1 1]⟩ := by
    rw [String_of _ _ (by simp [Lexer.ofSource, hlen]) hloop,
      afterString_err ⟨s, "script", 1, 1, 0, 1, [], []⟩
        (Or.inr (by show s.getD 1 NUL ≠ DQUOTE
                    rw [hs0]; exact hwq))]
    rfl
  obtain ⟨hO, hR, hS, hU⟩ := AfterFirstDiag_step s (SCP_Error unterminated "script" 1 1) hw1
  obtain ⟨l, hl, hP⟩ := scan_induction
    (AfterFirstDiag s (SCP_Error unterminated "script" 1 1))
    hO (fun l h _ _ => hR isdigit l h) (fun l h _ _ => hR isalnum l h) hS hU
    (r.length + 2) ⟨s, "script", 1, 1, 0, 1, [], [SCP_Error unterminated "script" 1 1]⟩
    ⟨rfl, Nat.le_refl _, fun t ht => by simp at ht, rfl⟩
    (by simp only [hlen]; omega)
  have hfuel : (Lexer.ofSource s).m_Source.length - (Lexer.ofSource s).m_Cursor + 1 =
      (r.length + 2) + 1 := by
    simp [Lexer.ofSource, hlen]
  refine ⟨l, ?_, ?_, ?_⟩
  · unfold Lexer.ScanTokens
    rw [hfuel, scan_quote _ _ (by simp [Lexer.IsAtEnd, Lexer.ofSource, hlen])
      (by rw [hat, hcur]), hat, hstr, Option.some_bind, hl]
  · intro t ht
    have := hP.2.2.1 t ht
    omega
  · rw [hP.2.2.2]
    decide

/-- C20 at the source made of a double quote, a space, `a` and a double quote: a
well-formed remainder does not help. -/
theorem C20_space_after_quote_witness :
    ∃ l, (Lexer.ofSource ([DQUOTE, ' '] ++ ['a', DQUOTE])).ScanTokens = some l ∧
      (∀ t ∈ l.GetTokens, t.Position ≠ 1) ∧
      l.out.head? = some "<script:1:1> Error: unterminated string literal\n" :=
  C20_space_after_quote ' ' ['a', DQUOTE] (by decide)

/-! ## The scan does not depend on what was written before -/

theorem Advance_withOut (o : List String) (l : Lexer) :
    (withOut o l).Advance.2 = withOut o l.Advance.2 := by
  rw [Advance_snd, Advance_snd]
  by_cases h : l.m_Cursor < l.m_Source.length
  · rw [if_pos h, if_pos (show (withOut o l).m_Cursor < (withOut o l).m_Source.length from h)]
    rfl
  · rw [if_neg h, if_neg (show ¬ (withOut o l).m_Cursor < (withOut o l).m_Source.length from h)]

theorem Operator_withOut (o : List String) (l : Lexer) :
    (withOut o l).Operator = withOut o l.Operator := by
  unfold Lexer.Operator
  simp only [Advance_withOut]
  have hc : (withOut o l).Current = l.Current := rfl
  rw [hc]
  split
  · rfl
  · split
    · rfl
    · split
      · rfl
      · split
        · rfl
        · rfl

theorem StringLoop_withOut (o : List String) (fuel : Nat) : ∀ l : Lexer,
    Lexer.StringLoop fuel (withOut o l) = (Lexer.StringLoop fuel l).map (withOut o) := by
  induction fuel with
  | zero => intro l; rfl
  | succ n ih =>
    intro l
    by_cases hsc : isStringChar l.Current = true
    · rw [StringLoop_step n l hsc, StringLoop_step n (withOut o l) hsc, ← ih]
      rfl
    · have hsc2 : isStringChar l.Current = false := by simpa using hsc
      rw [StringLoop_stop n l hsc2, StringLoop_stop n (withOut o l) hsc2]
      rfl

theorem afterString_withOut (o : List String) (l3 : Lexer) :
    ∃ o1, (withOut o l3).afterString = withOut o1 l3.afterString := by
  unfold Lexer.afterString
  have hc : ((withOut o l3).IsAtEnd || (withOut o l3).Current != DQUOTE) =
      (l3.IsAtEnd || l3.Current != DQUOTE) := rfl
  rw [hc]
  split
  · exact ⟨_, rfl⟩
  · exact ⟨o, Advance_withOut o (l3.MakeToken TokenType.Value)⟩

theorem String_withOut (o : List String) (l l1 : Lexer) (hq : l.Current = DQUOTE)
    (hs : l.String = some l1) : ∃ o1, (withOut o l).String = some (withOut o1 l1) := by
  have hlt : l.m_Cursor < l.m_Source.length := by
    by_contra hc
    have h0 : l.Current = NUL := List.getD_eq_default _ _ (by omega)
    rw [h0] at hq
    exact absurd hq (by decide)
  obtain ⟨c3, ln, e3, _⟩ := StringLoop_frame (l.m_Source.length - (l.m_Cursor + 1) + 1)
    { l with m_Cursor := l.m_Cursor + 1, m_TokenStart := l.m_TokenStart + 1 }
    (by simp only []; omega)
  have h1 := String_of l _ hlt e3
  rw [h1] at hs
  have hl1 := Option.some.inj hs
  have e4 := StringLoop_withOut o (l.m_Source.length - (l.m_Cursor + 1) + 1)
    { l with m_Cursor := l.m_Cursor + 1, m_TokenStart := l.m_TokenStart + 1 }
  rw [e3] at e4
  have h2 := String_of (withOut o l) _ hlt e4
  obtain ⟨o1, ho1⟩ := afterString_withOut o
    { l with m_Cursor := c3, m_Line := ln, m_TokenStart := l.m_TokenStart + 1 }
  refine ⟨o1, ?_⟩
  rw [h2, ← hl1, ← ho1]

theorem ScanTokensLoop_withOut (fuel : Nat) : ∀ (l : Lexer) (o : List String),
    (Lexer.ScanTokensLoop fuel (withOut o l)).map eraseOut =
      (Lexer.ScanTokensLoop fuel l).map eraseOut := by
  induction fuel with
  | zero => intro l o; rfl
  | succ n ih =>
    intro l o
    by_cases hend : l.IsAtEnd = true
    · rw [scan_end n l hend, scan_end n (withOut o l) hend]
      rfl
    · have hend2 : l.IsAtEnd = false := by simpa using hend
      have hend3 : (withOut o l).IsAtEnd = false := hend2
      have hat : (withOut o l).afterTrim = withOut o l.afterTrim := rfl
      have hcur : (withOut o l).afterTrim.Current = l.afterTrim.Current := rfl
      by_cases hop : operators.contains l.afterTrim.Current = true
      · rw [scan_operator n l hend2 hop, scan_operator n (withOut o l) hend3 hop, hat,
          Operator_withOut]
        exact ih _ _
      · by_cases hd : isdigit l.afterTrim.Current = true
        · rw [scan_digit n l hend2 hd, scan_digit n (withOut o l) hend3 hd]
          exact ih (l.afterTrim.afterRun isdigit) o
        · by_cases ha : isalpha l.afterTrim.Current = true
          · rw [scan_alpha n l hend2 ha, scan_alpha n (withOut o l) hend3 ha]
            exact ih (l.afterTrim.afterRun isalnum) o
          · by_cases hq : l.afterTrim.Current = DQUOTE
            · obtain ⟨l3, e3⟩ := String_total _ hq
              obtain ⟨o1, e4⟩ := String_withOut o _ l3 hq e3
              rw [scan_quote n l hend2 hq, scan_quote n (withOut o l) hend3 hq, hat, e3, e4,
                Option.some_bind, Option.some_bind]
              exact ih l3 o1
            · rw [scan_unknown n l hend2 (by simpa using hop) (by simpa using hd)
                  (by simpa using ha) hq,
                scan_unknown n (withOut o l) hend3 (by simpa using hop) (by simpa using hd)
                  (by simpa using ha) hq]
              rfl

theorem GetTokens_withOut (o : List String) (l : Lexer) :
    (withOut o l).ScanTokens.map Lexer.GetTokens = l.ScanTokens.map Lexer.GetTokens := by
  have h := congrArg (Option.map Lexer.GetTokens)
    (ScanTokensLoop_withOut (l.m_Source.length - l.m_Cursor + 1) l o)
  rw [Option.map_map, Option.map_map] at h
  exact h

/-! ## Loading a file that cannot be opened -/

/-- C15, as the code has it: where the path cannot be opened, `LoadFile` writes the one
diagnostic `failed to open file` for the path at 0:0 and changes no data member of the
lexer, so that `ScanTokens` and `GetTokens` after it give the tokens they give without
it; for a lexer made from the empty source these are no tokens. -/
theorem C15_load_failure_keeps_lexer (files : String → Option (List Char)) (l : Lexer)
    (filepath : String) (h : files filepath = none) :
    l.LoadFile files filepath =
      { l with
        out := l.out ++
          ["<" ++ filepath ++ ":0:0> Error: failed to open file: /" ++ filepath ++ "\n"] } ∧
    (l.LoadFile files filepath).ScanTokens.map Lexer.GetTokens =
      l.ScanTokens.map Lexer.GetTokens ∧
    ((Lexer.ofSource []).LoadFile files filepath).ScanTokens.map Lexer.GetTokens = some [] := by
  have hd : SCP_Error ("failed to open file: /" ++ filepath) filepath 0 0 =
      "<" ++ filepath ++ ":0:0> Error: failed to open file: /" ++ filepath ++ "\n" := by
    have h0 : toString (0 : Nat) = "0" := by decide
    unfold SCP_Error
    apply String.ext
    simp [h0]
  have he : ∀ l0 : Lexer, l0.LoadFile files filepath =
      withOut (l0.out ++
        ["<" ++ filepath ++ ":0:0> Error: failed to open file: /" ++ filepath ++ "\n"]) l0 := by
    intro l0
    unfold Lexer.LoadFile
    rw [h, ← hd]
    rfl
  refine ⟨he l, ?_, ?_⟩
  · rw [he l, GetTokens_withOut]
  · rw [he, GetTokens_withOut]
    rfl

/-- C15 at the path `nofile` of a file system without files, for the lexer made from the
source `1`. -/
theorem C15_load_failure_keeps_lexer_witness :
    (Lexer.ofSource ['1']).LoadFile noFiles "nofile" =
      { Lexer.ofSource ['1'] with
        out := (Lexer.ofSource ['1']).out ++
          ["<" ++ "nofile" ++ ":0:0> Error: failed to open file: /" ++ "nofile" ++ "\n"] } ∧
    ((Lexer.ofSource ['1']).LoadFile noFiles "nofile").ScanTokens.map Lexer.GetTokens =
      (Lexer.ofSource ['1']).ScanTokens.map Lexer.GetTokens ∧
    ((Lexer.ofSource []).LoadFile noFiles "nofile").ScanTokens.map Lexer.GetTokens = some [] :=
  C15_load_failure_keeps_lexer noFiles (Lexer.ofSource ['1']) "nofile" rfl

/-- C15 as stated fails for the lexer made from the source `1`: the path `nofile` cannot
be opened, `LoadFile` writes its diagnostic, and the scan after it yields the token of
the source `1`, not an empty sequence. -/
theorem C15_tokens_after_load_failure :
    noFiles "nofile" = none ∧
    ((Lexer.ofSource ['1']).LoadFile noFiles "nofile").out =
      ["<nofile:0:0> Error: failed to open file: /nofile\n"] ∧
    ((Lexer.ofSource ['1']).LoadFile noFiles "nofile").ScanTokens.map Lexer.GetTokens =
      some [⟨['1'], 1, 0, TokenType.Value⟩] ∧
    ((Lexer.ofSource ['1']).LoadFile noFiles "nofile").ScanTokens.map Lexer.GetTokens ≠
      some [] := by
  decide

/-! ## The sample scan of `main` -/

/-- C1: scanning the 21-byte sample input of `main` writes no diagnostic and `GetTokens`
is exactly Value `1` at 1:0, Add `+` at 1:2, Value `2` at 1:4 and Value `Hello, World!`
(without the quotes) at 1:7. -/
theorem C1_sample_scan :
    sampleInput.length = 21 ∧
    (Lexer.ofSource sampleInput).ScanTokens.map report =
      some ([], [⟨['1'], 1, 0, TokenType.Value⟩, ⟨['+'], 1, 2, TokenType.Add⟩,
        ⟨['2'], 1, 4, TokenType.Value⟩,
        ⟨"Hello, World!".toList, 1, 7, TokenType.Value⟩]) := by
  decide

end Scp
